import Mathlib

/-!
Verification of the rank-fusion and multi-query evaluation engine of the
`atri` repository (atri/core/metrics, atri/core/ranking/aggregation.py,
atri/manager/filesystem.py) against its specification.

The Python code is shallowly embedded:
* Python lists are `List`; machine integers are `ℤ`/`ℕ`; Python floats are
  modelled by `ℚ` where every operation performed is exact field arithmetic,
  and by `ℝ` where the code computes logarithms (the DCG family).
* Several metric functions mutate their argument in place (`rank += [0] * …`
  extends the caller's list).  Such functions are embedded as functions
  returning the pair (result, final state of the argument list).
* Python exceptions are `Except AErr`.
* Iteration order of a Python `set` of document-id strings is not fixed by
  the language; it enters the embedding as an explicit enumeration argument
  (`docsE`), constrained by hypotheses to enumerate exactly the set.
-/

namespace Atri

/-- The exceptions raised (or documented) by the engine: `Exception('nranks < 1')`
in `ndcg`, `KeyError` from a mapping lookup, `ZeroDivisionError`, `ValueError`
from the aggregators, and `IndexError` from numpy indexing. -/
inductive AErr
  | invalidArgument (msg : String)
  | keyError
  | divisionByZero
  | indexError
  | valueError (msg : String)
deriving DecidableEq, Repr

/-- The keyword arguments consumed by the metric functions
(`kwargs.get('limit' | 'nrel' | 'alternate')`).  `nrel` is read through
`float(…)`, hence stored as `ℚ`. -/
structure Kwargs where
  limit : Option ℤ
  nrel : Option ℚ
  alternate : Option Bool
deriving DecidableEq, Repr

/-- Python list slicing `l[:stop]` for an arbitrary integer `stop`:
a negative stop counts from the end, and the result is clamped to the list. -/
def pyTake {α : Type} (l : List α) (stop : ℤ) : List α :=
  if 0 ≤ stop then l.take stop.toNat
  else l.take (l.length - (-stop).toNat)

/-- `recall` from `atri/core/metrics/defaults.py`.  The local name `rank` is
the same object as the argument, so the `rank += [0] * …` padding mutates the
caller's list; the embedding returns (value, final state of the list).
Defaulting and clamping of `nrel` happen before the padding, exactly as in the
source (lines 34–42). -/
def recall' (v : List ℤ) (kw : Kwargs) : ℚ × List ℤ :=
  let limit : ℤ := kw.limit.getD (v.length : ℤ)
  let nrel0 : ℚ := kw.nrel.getD (v.length : ℚ)
  let nrel : ℚ := if nrel0 > (v.length : ℚ) then (v.length : ℚ) else nrel0
  let rank : List ℤ :=
    if (v.length : ℤ) < limit then v ++ List.replicate (limit - v.length).toNat 0 else v
  let num : ℚ := (pyTake rank (limit + 1)).foldl (fun (a : ℚ) (h : ℤ) => if 0 < h then a + (h : ℚ) else a) 0
  (if nrel > 0 then num / nrel else 0, rank)

/-- `precision` from `atri/core/metrics/defaults.py`; same in-place padding as
`recall`, hence the same (value, final state) shape. -/
def precision (v : List ℤ) (kw : Kwargs) : ℚ × List ℤ :=
  let limit : ℤ := kw.limit.getD (v.length : ℤ)
  let rank : List ℤ :=
    if (v.length : ℤ) < limit then v ++ List.replicate (limit - v.length).toNat 0 else v
  let prec : ℚ := (pyTake rank (limit + 1)).foldl (fun a h => if 0 < h then a + 1 else a) 0
  (if limit > 0 then prec / (limit : ℚ) else 0, rank)

/-- `f1` from `atri/core/metrics/defaults.py`.  It calls `precision` and then
`recall` on the same list object, so the list state is threaded through both
calls. -/
def f1 (v : List ℤ) (kw : Kwargs) : ℚ × List ℤ :=
  let p := precision v kw
  let r := recall' p.2 kw
  (if p.1 + r.1 > 0 then 2 * (p.1 * r.1 / (p.1 + r.1)) else 0, r.2)

/-- `cum_gain` from `atri/core/metrics/ndcg.py`: plain sum, `0.0` for an empty
input. -/
def cum_gain (relevance : List ℤ) : ℤ :=
  if relevance.length < 1 then 0 else relevance.sum

/-- `dcg` from `atri/core/metrics/ndcg.py`.  The code computes with float64
and `np.log2`; the embedding uses exact real arithmetic (`Real.logb 2`), which
is why it is noncomputable.  No claim depends on its value. -/
noncomputable def dcg (relevance : List ℤ) (alternate : Bool) : ℝ :=
  if relevance.length < 1 then 0
  else if alternate then
    ((List.range relevance.length).map fun i =>
      ((2 : ℝ) ^ (relevance.getD i 0) - 1) / Real.logb 2 ((i : ℝ) + 2)).sum
  else
    ((relevance.getD 0 0 : ℝ)) +
      ((List.range (relevance.length - 1)).map fun i =>
        ((relevance.getD (i + 1) 0 : ℝ)) / Real.logb 2 ((i : ℝ) + 2)).sum

/-- `idcg` from `atri/core/metrics/ndcg.py`: `dcg` of the vector sorted
descending (`rel.sort()` ascending on a copy, then reversed). -/
noncomputable def idcg (relevance : List ℤ) (alternate : Bool) : ℝ :=
  if relevance.length < 1 then 0
  else dcg ((List.insertionSort (fun a b => a ≤ b) relevance).reverse) alternate

open Classical in
/-- `ndcg` from `atri/core/metrics/ndcg.py`.  The empty-input check comes
first, so `nranks` is only validated for a non-empty vector; `nranks < 1`
raises (`Exception('nranks < 1')`, the spec's `InvalidArgument`). -/
noncomputable def ndcg (relevance : List ℤ) (nranks : ℤ) (alternate : Bool) :
    Except AErr ℝ :=
  if relevance.length < 1 then .ok 0
  else if nranks < 1 then .error (.invalidArgument "nranks < 1")
  else
    let pad : ℤ := max 0 (nranks - relevance.length)
    let rel : List ℤ := relevance ++ List.replicate pad.toNat 0
    let rel : List ℤ := rel.take (min nranks.toNat rel.length)
    if idcg rel alternate = 0 then .ok 0
    else .ok (dcg rel alternate / idcg rel alternate)

/-- `NDCG` from `atri/core/metrics/ndcg.py`: pads the caller's list in place
(same `rank += …` as the other metrics) and calls `ndcg` on the same object;
the inner `kwargs.get('limit', len(ground_truth_permutated))` reads the length
after the mutation. -/
noncomputable def NDCG (v : List ℤ) (kw : Kwargs) : Except AErr ℝ × List ℤ :=
  let limit : ℤ := kw.limit.getD (v.length : ℤ)
  let rank : List ℤ :=
    if (v.length : ℤ) < limit then v ++ List.replicate (limit - v.length).toNat 0 else v
  (ndcg rank (kw.limit.getD (rank.length : ℤ)) (kw.alternate.getD true), rank)

/-- C3's reading of `recall`, written from the claim's words rather than the
source, for comparison with `recall'`: `nrel` defaults to the *padded* vector
length and is clamped so it does not exceed the *padded* length; the result is
`numerator / nrel`, or `0.0` exactly when `nrel == 0`. -/
def recallPerClaimC3 (v : List ℤ) (kw : Kwargs) : ℚ :=
  let limit : ℤ := kw.limit.getD (v.length : ℤ)
  let padded : List ℤ :=
    if (v.length : ℤ) < limit then v ++ List.replicate (limit - v.length).toNat 0 else v
  let nrel : ℚ := min (kw.nrel.getD (padded.length : ℚ)) (padded.length : ℚ)
  let num : ℚ := (((pyTake padded (limit + 1)).filter fun h => 0 < h).map fun h => (h : ℚ)).sum
  if nrel = 0 then 0 else num / nrel

/-- The amended reading of `recall`'s value: `nrel` defaults to the *original*
vector length and is clamped against the *original* (pre-padding) length; the
numerator is the sum of the positive values in the off-by-one window
`rank[:limit+1]` of the zero-padded vector; the result is `numerator / nrel`
when `nrel > 0` and `0.0` otherwise. -/
def recallSpecAmended (v : List ℤ) (kw : Kwargs) : ℚ :=
  let limit : ℤ := kw.limit.getD (v.length : ℤ)
  let nrel : ℚ := min (kw.nrel.getD (v.length : ℚ)) (v.length : ℚ)
  let padded : List ℤ := v ++ List.replicate (limit - v.length).toNat 0
  let num : ℚ := (((pyTake padded (limit + 1)).filter fun h => 0 < h).map fun h => (h : ℚ)).sum
  if 0 < nrel then num / nrel else 0

/-- Left-to-right effectful map over `Except`, as a Python list comprehension
evaluates: stops at the first raised exception. -/
def collectE {ε α β : Type} (f : α → Except ε β) : List α → Except ε (List β)
  | [] => .ok []
  | x :: t =>
    match f x with
    | .error e => .error e
    | .ok y =>
      match collectE f t with
      | .error e => .error e
      | .ok ys => .ok (y :: ys)

/-- Left fold over `Except`, as a Python `for` loop around raising code. -/
def foldlE {ε σ α : Type} (f : σ → α → Except ε σ) : σ → List α → Except ε σ
  | s, [] => .ok s
  | s, x :: t =>
    match f s x with
    | .error e => .error e
    | .ok s2 => foldlE f s2 t

/-- A relevance judgment (`qrel`): either a set of relevant document ids or a
mapping id → grade (`isinstance(qrel, dict)`).  Document ids — strings in the
code — are opaque; the embedding uses `ℕ`.  A `graded` judgment is the
association list of a Python dict (keys distinct, insertion order). -/
inductive Qrel
  | set (s : List ℕ)
  | graded (m : List (ℕ × ℤ))
deriving DecidableEq, Repr

/-- `len(qrel)` (number of keys of a dict / size of a set). -/
def qrelLen : Qrel → ℕ
  | .set s => s.length
  | .graded m => m.length

/-- The truth function built at `filesystem.py:291`:
`(lambda x: qrel[x]) if isinstance(qrel, dict) else (lambda x: int(x in qrel))`.
For a mapping judgment the subscript lookup raises `KeyError` when the id is
absent. -/
def truth (qrel : Qrel) (x : ℕ) : Except AErr ℤ :=
  match qrel with
  | .graded m =>
    match m.lookup x with
    | some v => .ok v
    | none => .error .keyError
  | .set s => .ok (if x ∈ s then 1 else 0)

/-- `SearchManager.__extract_hits`: builds `hits_json[hit['name']] = …` over
the hits in rank order.  A Python dict keeps the first-insertion position of a
key, so the keys are the hit names with later duplicates dropped; the stored
score/position values are not consumed by any claim and are omitted. -/
def extract_hits (names : List ℕ) : List ℕ :=
  names.foldl (fun acc nm => if nm ∈ acc then acc else acc ++ [nm]) []

/-- Python `str.split(sep)` for a one-character separator, on the character
list of the string: `"a@b".split("@") == ["a","b"]`, `"".split("@") == [""]`. -/
def splitOnChar (c : Char) : List Char → List (List Char)
  | [] => [[]]
  | x :: xs =>
    if x = c then [] :: splitOnChar c xs
    else
      match splitOnChar c xs with
      | [] => [[x]]
      | h :: t => (x :: h) :: t

/-- The value of a decimal digit character, `none` otherwise. -/
def pyDigit? (c : Char) : Option ℕ :=
  if '0' ≤ c ∧ c ≤ '9' then some (c.toNat - '0'.toNat) else none

/-- Decimal digit accumulation for `int(…)`. -/
def parseNatCore (l : List Char) : Option ℕ :=
  l.foldl
    (fun acc c =>
      match acc, pyDigit? c with
      | some a, some d => some (a * 10 + d)
      | _, _ => none)
    (some 0)

/-- Python `int(s)` on the digit strings that can occur in a metric spec:
an optional minus sign followed by decimal digits; anything else fails
(`ValueError`).  (Python also accepts surrounding whitespace, `+` and `_`
separators; no metric spec uses them.) -/
def pyInt? (l : List Char) : Option ℤ :=
  if l = [] then none
  else if l.headD ' ' = '-' then
    if l.tail = [] then none else (parseNatCore l.tail).map (fun n => -(n : ℤ))
  else (parseNatCore l).map (fun n => (n : ℤ))

/-- The decimal rendering of a natural number, used to state facts about
metric-spec strings `name@k`. -/
def natChars (k : ℕ) : List Char :=
  if k = 0 then ['0']
  else ((Nat.digits 10 k).reverse).map (fun d => "0123456789".toList.getD d '0')

/-- `split_limit` inside `SearchManager.__metric_handle`: if the spec contains
`"@"`, split on it and parse the second part as an int; otherwise
`(metric, None)`. -/
def split_limit (metric : List Char) : Except AErr (List Char × Option ℤ) :=
  if '@' ∈ metric then
    let parts := splitOnChar '@' metric
    match pyInt? (parts.getD 1 []) with
    | some k => .ok (parts.getD 0 [], some k)
    | none => .error (.valueError "invalid literal for int()")
  else .ok (metric, none)

/-- Python truthiness of the parsed `k` (`if k:`): `None` and `0` are falsy. -/
def pyTruthy : Option ℤ → Bool
  | none => false
  | some v => v != 0

/-- `SearchManager.__metric_handle` without the registry lookup: splits the
metric spec and sets `kwargs['limit'] = k` only when `k` is truthy. -/
def metric_handle (metric : List Char) (kw : Kwargs) :
    Except AErr (List Char × Kwargs) := do
  let nk ← split_limit metric
  let kw := if pyTruthy nk.2 then { kw with limit := some (nk.2.getD 0) } else kw
  pure (nk.1, kw)

/-- A metric function as the evaluator consumes it: relevance vector and
kwargs in, (value-or-error, final state of the vector) out. -/
def MetricFn : Type := List ℤ → Kwargs → Except AErr ℝ × List ℤ

/-- Modelled from the spec: `get_metric`, imported by
`atri/manager/filesystem.py` from `atri.core.metrics` whose `__init__.py` is
not under `src/`.  Per spec §4.1 the metric library consists of `precision`,
`recall`, `f1` and `NDCG` (ndcg), resolved by name; an unknown name fails the
registry lookup. -/
noncomputable def get_metric (name : List Char) : Except AErr MetricFn :=
  if name = "precision".toList then
    .ok (fun v kw => (.ok (((precision v kw).1 : ℝ)), (precision v kw).2))
  else if name = "recall".toList then
    .ok (fun v kw => (.ok (((recall' v kw).1 : ℝ)), (recall' v kw).2))
  else if name = "f1".toList then
    .ok (fun v kw => (.ok (((f1 v kw).1 : ℝ)), (f1 v kw).2))
  else if name = "ndcg".toList then .ok (fun v kw => NDCG v kw)
  else .error .keyError

/-- `DEFAULT_METRIC_LIST` from `atri/core/constants.py`. -/
def DEFAULT_METRIC_LIST : List (List Char) :=
  ["ndcg@3".toList, "ndcg@5".toList, "ndcg@10".toList, "ndcg@20".toList,
   "precision@3".toList, "precision@5".toList, "precision@10".toList,
   "recall@3".toList, "recall@5".toList, "recall@10".toList]

/-- `metrics = kwargs.pop('metrics') if 'metrics' in kwargs and kwargs['metrics']
else DEFAULT_METRIC_LIST` (filesystem.py:276). -/
def effectiveMetrics (metricsArg : Option (List (List Char))) : List (List Char) :=
  match metricsArg with
  | some l => if l = [] then DEFAULT_METRIC_LIST else l
  | none => DEFAULT_METRIC_LIST

/-- `metrics_handle = {metric: SearchManager.__metric_handle(metric, **kwargs)
for metric in metrics}` (filesystem.py:279): each metric resolves to its
function and its own kwargs copy. -/
noncomputable def buildHandles (metrics : List (List Char)) (kw : Kwargs) :
    Except AErr (List (MetricFn × Kwargs)) :=
  collectE (fun m => do
    let nk ← metric_handle m kw
    let fn ← get_metric nk.1
    pure (fn, nk.2)) metrics

/-- The inner metric loop of one query (filesystem.py:296–299): for each
metric, set `params['nrel'] = len(qrel)` and add `fn(hits_evaluated, **params)`
to its accumulator.  `hits_evaluated` is one list object shared by all metrics
of the query, so its (possibly padded) state is threaded through.  The
accumulators `es` always travel aligned with the handles; the fallback for a
shorter `es` is never reached. -/
def metricsPass : List (MetricFn × Kwargs) → List ℝ → List ℤ → ℚ →
    Except AErr (List ℝ)
  | [], _, _, _ => .ok []
  | h :: hs, e :: es, v, nrel =>
    let r := h.1 v { h.2 with nrel := some nrel }
    match r.1 with
    | .error err => .error err
    | .ok val => (metricsPass hs es r.2 nrel).map (fun tail => (e + val) :: tail)
  | _ :: _, [], _, _ => .ok []

/-- One query's contribution, starting from zero accumulators: extract the hit
names, build the relevance vector through `truth`, run the metric loop. -/
def query_pass (handles : List (MetricFn × Kwargs)) (searchFn : ℕ → List ℕ)
    (q : ℕ × Qrel) : Except AErr (List ℝ) := do
  let hitsEv ← collectE (truth q.2) (extract_hits (searchFn q.1))
  metricsPass handles (List.replicate handles.length 0) hitsEv (qrelLen q.2)

/-- The body of the query loop of `multiquery_search` (filesystem.py:284–300):
search, build the relevance vector, accumulate every metric, `ratio += 1`. -/
def queryStep (handles : List (MetricFn × Kwargs)) (searchFn : ℕ → List ℕ)
    (st : List ℝ × ℚ) (q : ℕ × Qrel) : Except AErr (List ℝ × ℚ) := do
  let hitsEv ← collectE (truth q.2) (extract_hits (searchFn q.1))
  let ev ← metricsPass handles st.1 hitsEv (qrelLen q.2)
  pure (ev, st.2 + 1)

/-- `SearchManager.multiquery_search` (filesystem.py:269–305).  The search
backend (whoosh index + searcher) is outside the engine and enters as
`searchFn`, giving each query's ranked hit names; `queryGen` supplies
`(query, qrel)` pairs.  After the query loop every accumulated sum is divided
by the number of processed queries — `evaluation[metric] /= ratio` raises
`ZeroDivisionError` when the batch was empty. -/
noncomputable def multiquery_search (searchFn : ℕ → List ℕ)
    (queryGen : List (ℕ × Qrel)) (metricsArg : Option (List (List Char)))
    (kw : Kwargs) : Except AErr (List (List Char × ℝ)) := do
  let metrics := effectiveMetrics metricsArg
  let handles ← buildHandles metrics kw
  let st ← foldlE (queryStep handles searchFn)
    (List.replicate metrics.length (0 : ℝ), (0 : ℚ)) queryGen
  let final ← collectE (fun (p : List Char × ℝ) =>
    if st.2 = 0 then Except.error AErr.divisionByZero
    else .ok (p.1, p.2 / ((st.2 : ℚ) : ℝ))) (metrics.zip st.1)
  pure final

/-- Pointwise sum of per-query value vectors. -/
def sumVecs (n : ℕ) (ls : List (List ℝ)) : List ℝ :=
  ls.foldl (fun acc l => acc.zipWith (· + ·) l) (List.replicate n 0)

/-- `(List.range n).map f`: a freshly built numpy row/vector. -/
def buildList {α : Type} (n : ℕ) (f : ℕ → α) : List α := (List.range n).map f

/-- The sorting key of `np.argsort` made irreflexive-total: ascending by value,
ties by ascending index (stable).  numpy's default kind is introsort, which is
unstable in general: it runs a plain (stable) insertion sort only on arrays of
at most 16 elements (`SMALL_QUICKSORT` — partitioning starts strictly above
that), so this model fixes the program's tie order exactly for arrays of at
most 16 elements.  On larger arrays the model's tie resolution is one
arbitrary choice among the orders introsort can produce; accordingly, beyond
that bound this development only draws tie-order-insensitive conclusions from
`argsort` (sorts of all-distinct values, and output length/permutation
facts), and the tie-break theorem itself carries the 16-element bound. -/
def argsortRel (data : List ℤ) (i j : ℕ) : Prop :=
  data.getD i 0 < data.getD j 0 ∨ (data.getD i 0 = data.getD j 0 ∧ i ≤ j)

instance (data : List ℤ) : DecidableRel (argsortRel data) := fun _ _ =>
  inferInstanceAs (Decidable (_ ∨ _))

/-- `data.argsort()`: the indices `0 … len-1` sorted by `argsortRel`. -/
def argsort (data : List ℤ) : List ℕ :=
  List.insertionSort (argsortRel data) (List.range data.length)

instance argsortRel_trans (data : List ℤ) : IsTrans ℕ (argsortRel data) := by
  constructor
  intro a b c hab hbc
  rcases hab with h1 | ⟨h1, h1'⟩ <;> rcases hbc with h2 | ⟨h2, h2'⟩
  · exact Or.inl (h1.trans h2)
  · exact Or.inl (h2 ▸ h1)
  · exact Or.inl (h1 ▸ h2)
  · exact Or.inr ⟨h1.trans h2, h1'.trans h2'⟩

instance argsortRel_total (data : List ℤ) : IsTotal ℕ (argsortRel data) := by
  constructor
  intro a b
  rcases lt_trichotomy (data.getD a 0) (data.getD b 0) with h | h | h
  · exact Or.inl (Or.inl h)
  · rcases Nat.le_total a b with h' | h'
    · exact Or.inl (Or.inr ⟨h, h'⟩)
    · exact Or.inr (Or.inr ⟨h.symm, h'⟩)
  · exact Or.inr (Or.inl h)

instance argsortRel_antisymm (data : List ℤ) : IsAntisymm ℕ (argsortRel data) := by
  constructor
  intro a b hab hba
  rcases hab with h1 | ⟨h1, h1'⟩ <;> rcases hba with h2 | ⟨h2, h2'⟩
  · exact absurd (h1.trans h2) (lt_irrefl _)
  · exact absurd h1 (h2 ▸ lt_irrefl _)
  · exact absurd h2 (h1 ▸ lt_irrefl _)
  · exact Nat.le_antisymm h1' h2'

/-- `BordaCount._rank_score`: writes `borda_rank[rank[i] - 1] = n_rows - (i+1)`
for each `i`, flagging ids `< 1` (`ValueError` after the loop) — numpy itself
raises `IndexError` for an id `> n_rows`.  The caller always passes rows of
length `ndocs`. -/
def rank_score (ndocs : ℕ) (rank : List ℤ) : Except AErr (List ℤ) := do
  let st ← foldlE
    (fun (st : List ℤ × Bool) (i : ℕ) =>
      let x := rank.getD i 0
      if x - 1 < 0 then .ok (st.1, true)
      else if (ndocs : ℤ) ≤ x - 1 then .error .indexError
      else .ok (st.1.set (x - 1).toNat ((ndocs : ℤ) - ((i : ℤ) + 1)), st.2))
    (List.replicate ndocs 0, false) (List.range ndocs)
  if st.2 then .error (.valueError "Error in BordaCount::rank : Doc id's must be higher than 1")
  else .ok st.1

/-- One row of `ndranks` in `BordaCount.rank_by_id`: the ranking's ids mapped
through `map_doc_ids[d] = docsE.indexOf d + 1`, then the padding
`list(set_doc_ids - set_rank_ids)` — a CPython set of the small ints
`1 … ndoc`, which enumerates ascending. -/
def bordaRow (docsE : List ℕ) (r : List ℕ) : List ℤ :=
  let rank_ids : List ℤ := r.map (fun d => (docsE.indexOf d : ℤ) + 1)
  let padding : List ℤ := ((List.range' 1 docsE.length).filter
    (fun x : ℕ => ¬ (x : ℤ) ∈ rank_ids)).map (fun x : ℕ => (x : ℤ))
  rank_ids ++ padding

/-- The tail of `BordaCount.rank_by_id` once the summed scores `data` are in
hand: `idx = (data.argsort() + 1)[::-1]` and the fused list
`[(float(score[idx[i]-1]), map_ids_doc[idx[i]]) for i in range(ndoc)]`. -/
def bordaTail (docsE : List ℕ) (data : List ℤ) : List (ℚ × ℕ) :=
  let idx : List ℕ := ((argsort data).map (fun i => i + 1)).reverse
  buildList docsE.length (fun i =>
    (((data.getD (idx.getD i 0 - 1) 0 : ℤ) : ℚ), docsE.getD (idx.getD i 0 - 1) 0))

/-- `BordaCount.rank_by_id` with `_rank`/`_fit` inlined.  `docsE` is the
iteration order of the Python set `docs` (the union of the rankings'
document ids); `map_ids_doc` is the inverse of `map_doc_ids`.  numpy's
`ndranks[i, :] = …` requires each row to have exactly `ndoc` entries. -/
def borda_rank_by_id (docsE : List ℕ) (rankings : List (List ℕ)) :
    Except AErr (List (ℚ × ℕ)) :=
  if rankings.length > 0 then do
    let ndoc := docsE.length
    let ndranks ← collectE
      (fun (r : List ℕ) =>
        let row := bordaRow docsE r
        if row.length = ndoc then Except.ok row
        else Except.error (.valueError "could not broadcast")) rankings
    let scores ← collectE (rank_score ndoc) ndranks
    let data : List ℤ := buildList ndoc (fun d => (scores.map (fun row => row.getD d 0)).sum)
    pure (bordaTail docsE data)
  else .error (.valueError "Error in BordaCount::rank : You must provide some ranking")

/-- `MarkovChain.get_matrix_shape`: `(len(df.index), len(df.columns))` of the
dataframe built from a rectangular ndarray. -/
def get_matrix_shape (df : List (List ℤ)) : ℕ × ℕ :=
  (df.length, (df.getD 0 []).length)

/-- `MarkovChain.get_partial_transition_matrix`:
`result = len(df.columns[df.iloc[i] < df.iloc[j]])`, then the `-1 / 0 / 1`
(or weighted, for `mct`) cell value. -/
def get_partial_transition_matrix (df : List (List ℤ)) (algo : String)
    (items lists : ℕ) : List (List ℚ) :=
  buildList items (fun i => buildList items (fun j =>
    let result := ((List.range lists).filter
      (fun c => (df.getD i []).getD c 0 < (df.getD j []).getD c 0)).length
    if result = 0 ∧ i = j then -1
    else if (result : ℚ) > (lists : ℚ) / 2 then 0
    else if algo = "mc4" then 1 else ((lists : ℚ) - (result : ℚ)) / (lists : ℚ)))

/-- `MarkovChain.get_normalized_transition_matrix`: divide everything by
`items`, then overwrite each diagonal cell with
`1 − (sum(p[i, i+1:items]) + sum(p[i, 0:j]))`.  Only diagonal cells are
written and the two slices only read off-diagonal cells, so the in-place loop
equals this pure construction. -/
def get_normalized_transition_matrix (p : List (List ℚ)) (items : ℕ) :
    List (List ℚ) :=
  let p1 := p.map (fun row => row.map (fun x => x / (items : ℚ)))
  buildList items (fun i => buildList items (fun j =>
    if i = j then
      1 - ((((p1.getD i []).drop (i + 1)).take (items - (i + 1))).sum
        + ((p1.getD i []).take j).sum)
    else (p1.getD i []).getD j 0))

/-- `MarkovChain.get_ergodic_transition_matrix`:
`n_matrix * (1 - erg_number) + erg_number / items`.  When `items = 0` Python
already raises `ZeroDivisionError` here (`erg_number / items` with an `int`
zero); the embedding keeps the field value (`x / 0 = 0` in `ℚ`) on the then
empty matrix and lets the initial-distribution step below report the same
`ZeroDivisionError`, so `mc4_aggregator`'s observable result is unchanged. -/
def get_ergodic_transition_matrix (nm : List (List ℚ)) (items : ℕ) (erg : ℚ) :
    List (List ℚ) :=
  nm.map (fun row => row.map (fun x => x * (1 - erg) + erg / (items : ℚ)))

/-- `MarkovChain.get_initial_distribution_matrix`: `np.repeat(1/items, items)`.
Python evaluates `1/items` first and raises `ZeroDivisionError` when the
universe is empty. -/
def get_initial_distribution_matrix (items : ℕ) : Except AErr (List ℚ) :=
  if items = 0 then .error .divisionByZero
  else .ok (List.replicate items (1 / (items : ℚ)))

/-- `state_matrix.dot(transition_matrix)` for a row vector and a square
matrix: `new[j] = Σ_i state[i] * T[i][j]`. -/
def matVecDot (state : List ℚ) (T : List (List ℚ)) : List ℚ :=
  buildList ((T.getD 0 []).length) (fun j =>
    ((List.range T.length).map (fun i => state.getD i 0 * (T.getD i []).getD j 0)).sum)

/-- The `while counter <= iterations` loop of
`MarkovChain.get_stationary_distribution_matrix`: note that on convergence
(`(np.abs(error) < precision).all()`) it breaks *before* `state_matrix =
new_state_matrix`, returning the previous iterate. -/
def stationary_loop (T : List (List ℚ)) (prec : ℚ) : ℕ → List ℚ → List ℚ
  | 0, s => s
  | fuel + 1, s =>
    let ns := matVecDot s T
    if (List.range ns.length).all (fun k => |ns.getD k 0 - s.getD k 0| < prec) then s
    else stationary_loop T prec fuel ns

/-- `MarkovChain.get_stationary_distribution_matrix`. -/
def get_stationary_distribution_matrix (state : List ℚ) (T : List (List ℚ))
    (prec : ℚ) (iterations : ℕ) : List ℚ :=
  stationary_loop T prec iterations state

/-- `MarkovChain.get_aggregated_ranks`: dense ranking of the stationary
probabilities — walk them sorted descending, assign the next rank to each
value not seen before, then map every entry through the table (a Python dict,
embedded as an association list). -/
def get_aggregated_ranks (matrix : List ℚ) : List ℕ :=
  let sortedDesc := List.insertionSort (fun a b => b ≤ a) matrix
  let a := sortedDesc.foldl
    (fun (st : List (ℚ × ℕ) × ℕ) num =>
      if (st.1.lookup num).isSome then st else (st.1 ++ [(num, st.2)], st.2 + 1))
    ([], 1)
  matrix.map (fun x => (a.1.lookup x).getD 0)

/-- `MarkovChain.get_mapped_final_ranks` with `index_col=None`:
`zip(np.arange(0, len(df.index)+1), final_ranks)` — `zip` stops at the shorter
sequence. -/
def get_mapped_final_ranks (dfRows : ℕ) (final_ranks : List ℕ) : List (ℕ × ℕ) :=
  (List.range (dfRows + 1)).zip final_ranks

/-- `MarkovChain.mc4_aggregator` with its default arguments
(`algo='mc4'`, `precision=1e-7`, `iterations=200`, `erg_number=0.15`). -/
def mc4_aggregator (df : List (List ℤ)) : Except AErr (List (ℕ × ℕ)) := do
  let shape := get_matrix_shape df
  let ptm := get_partial_transition_matrix df "mc4" shape.1 shape.2
  let ntm := get_normalized_transition_matrix ptm shape.1
  let etm := get_ergodic_transition_matrix ntm shape.1 (3 / 20)
  let idm ← get_initial_distribution_matrix shape.1
  let sdm := get_stationary_distribution_matrix idm etm (1 / 10000000) 200
  pure (get_mapped_final_ranks shape.1 (get_aggregated_ranks sdm))

/-- `ndpos[i, j] = v` on the grid. numpy raises for a row index out of range
(and wraps negative ones); `List.set` is a no-op there, and every caller in
this development stays in bounds. -/
def set2d (g : List (List ℤ)) (i j : ℕ) (v : ℤ) : List (List ℤ) :=
  g.set i ((g.getD i []).set j v)

/-- The `ndpos` construction of `MarkovChain.rank_by_id`:
`for i, rank in enumerate(ndranks): for pos, doc in enumerate(rank):
ndpos[doc - 1, i] = pos + 1`. -/
def buildNdpos (ndoc nrank : ℕ) (ndranks : List (List ℤ)) : List (List ℤ) :=
  ndranks.enum.foldl
    (fun g irow =>
      irow.2.enum.foldl
        (fun g2 pd => set2d g2 (pd.2 - 1).toNat irow.1 ((pd.1 : ℤ) + 1)) g)
    (List.replicate ndoc (List.replicate nrank 0))

/-- `MarkovChain.rank_by_id`.  `docsE` is the iteration order of the Python
set `docs`; each padding `list(docs - set(rank))` iterates the same set, hence
follows `docsE`'s order.  The final `rank.sort(key=lambda x: -x[0])` is
Python's stable sort by descending score. -/
def markov_rank_by_id (docsE : List ℕ) (rankings : List (List ℕ)) :
    Except AErr (List (ℚ × ℕ)) :=
  if rankings.length > 0 then do
    let ndoc := docsE.length
    let paddings := rankings.map (fun r => docsE.filter (fun d => ¬ d ∈ r))
    let ndranks ← collectE
      (fun (p : List ℕ × List ℕ) =>
        let row : List ℤ := p.1.map (fun d => (docsE.indexOf d : ℤ) + 1)
          ++ p.2.map (fun d => (docsE.indexOf d : ℤ) + 1)
        if row.length = ndoc then Except.ok row
        else Except.error (.valueError "could not broadcast")) (rankings.zip paddings)
    let ndpos := buildNdpos ndoc rankings.length ndranks
    let mc4 ← mc4_aggregator ndpos
    let size := ndpos.length
    let rank := mc4.map (fun p => (((size : ℚ) - (p.2 : ℚ)), docsE.getD p.1 0))
    pure (List.insertionSort (fun a b => b.1 ≤ a.1) rank)
  else .error (.valueError "Error in MarkovChain::rank : You must provide some ranking")

/-- Decidable equality of `Except` results, for concrete evaluations. -/
instance exceptDecEq {ε α : Type} [DecidableEq ε] [DecidableEq α] :
    DecidableEq (Except ε α) := fun x y =>
  match x, y with
  | .ok a, .ok b =>
    if h : a = b then .isTrue (by rw [h]) else .isFalse (fun he => h (Except.ok.inj he))
  | .error a, .error b =>
    if h : a = b then .isTrue (by rw [h]) else .isFalse (fun he => h (Except.error.inj he))
  | .ok _, .error _ => .isFalse (fun he => Except.noConfusion he)
  | .error _, .ok _ => .isFalse (fun he => Except.noConfusion he)

/-- C4's tie-break property, written from the claim's words: the fused ranking
descends by score, and equal-score neighbours are ordered by *ascending*
document index (the 1-based index is `docsE.indexOf id + 1`; comparing the
0-based indices is equivalent). -/
def descTieAsc (docsE : List ℕ) : List (ℚ × ℕ) → Bool
  | [] => true
  | [_] => true
  | a :: b :: t =>
    (decide (a.1 > b.1) || (decide (a.1 = b.1)
      && decide (docsE.indexOf a.2 < docsE.indexOf b.2))) && descTieAsc docsE (b :: t)

/-- The single `ndranks` row of `MarkovChain.rank_by_id` for a one-element
batch `[r]` whose ranking covers the whole universe: the ids mapped through
`map_doc_ids[d] = docsE.indexOf d + 1` (the padding is empty there). -/
def singleRow (docsE r : List ℕ) : List ℤ :=
  r.map (fun d => (docsE.indexOf d : ℤ) + 1)

/-- The 0-based rank position of the document with 1-based id `d + 1` in that
single row; `ndpos[d, 0] = qpos docsE r d + 1`. -/
def qpos (docsE r : List ℕ) (d : ℕ) : ℕ :=
  (singleRow docsE r).indexOf ((d : ℤ) + 1)

/-- The ergodic transition matrix `mc4_aggregator` builds for the
single-ranking position dataframe (shape `(ndoc, 1)`). -/
def singleETM (docsE r : List ℕ) : List (List ℚ) :=
  get_ergodic_transition_matrix
    (get_normalized_transition_matrix
      (get_partial_transition_matrix
        (buildNdpos docsE.length 1 [singleRow docsE r]) "mc4" docsE.length 1)
      docsE.length)
    docsE.length (3 / 20)

/-- One step of the stationary-distribution iteration on `singleETM`, as a
function of the 0-based rank position `p` of a document, for a state whose
value at the position-`p` document is `φ p` (derived in
`single_step_getD`). -/
def stepFun (n : ℕ) (φ : ℕ → ℚ) (p : ℕ) : ℚ :=
  3 * (∑ v in Finset.range n, φ v) / (20 * n)
    + 17 / (20 * n)
      * ((∑ v in (Finset.range n).filter (fun v => p < v), φ v)
        + φ p * ((n : ℚ) - (p : ℚ)))

/-- The descending comparison `sorted(matrix, reverse=True)` uses, as a
binary relation. -/
instance qDescTrans : IsTrans ℚ (fun a b => b ≤ a) :=
  ⟨fun _ _ _ h1 h2 => le_trans h2 h1⟩

instance qDescAntisymm : IsAntisymm ℚ (fun a b => b ≤ a) :=
  ⟨fun _ _ h1 h2 => le_antisymm h2 h1⟩

instance qDescTotal : IsTotal ℚ (fun a b => b ≤ a) :=
  ⟨fun a b => le_total b a⟩

-- ------------------------------------------------------------------
-- Theorems
-- ------------------------------------------------------------------

/-- The loop `for hit in …: if hit > 0: prec += 1.0` counts the positive
entries. -/
lemma foldl_count_pos (l : List ℤ) (a : ℚ) :
    l.foldl (fun (a : ℚ) (h : ℤ) => if 0 < h then a + 1 else a) a
      = a + ((l.filter fun h => 0 < h).length : ℚ) := by
  induction l generalizing a with
  | nil => simp
  | cons x t ih =>
    by_cases hx : 0 < x
    · simp [List.foldl_cons, hx, ih, List.filter_cons]
      ring
    · simp [List.foldl_cons, hx, ih, List.filter_cons]

/-- The loop `for hit in …: if hit > 0: recall += hit` sums the positive
entries. -/
lemma foldl_sum_pos (l : List ℤ) (a : ℚ) :
    l.foldl (fun (a : ℚ) (h : ℤ) => if 0 < h then a + (h : ℚ) else a) a
      = a + (((l.filter fun h => 0 < h).map fun h => (h : ℚ)).sum) := by
  induction l generalizing a with
  | nil => simp
  | cons x t ih =>
    by_cases hx : 0 < x
    · simp [List.foldl_cons, hx, ih, List.filter_cons]
      ring
    · simp [List.foldl_cons, hx, ih, List.filter_cons]

/-- The list state every one of `recall`, `precision`, `NDCG` leaves behind:
the original list, right-padded in place when it was shorter than `limit`. -/
lemma padded_state_take (v : List ℤ) (L : ℤ) :
    (if (v.length : ℤ) < L then v ++ List.replicate (L - v.length).toNat 0 else v).take v.length
      = v := by
  split
  · exact List.take_left v _
  · exact List.take_length v

lemma padded_state_of_le (v : List ℤ) (L : ℤ) (h : L ≤ (v.length : ℤ)) :
    (if (v.length : ℤ) < L then v ++ List.replicate (L - v.length).toNat 0 else v) = v := by
  rw [if_neg (not_lt.mpr h)]


/-- C1 counterexample: on `v = [1]` with `limit = 2` each of `recall`,
`precision` and `NDCG` pads the caller's list in place (`rank += [0] * …`), so
after the call `v` no longer holds exactly the elements it held before — it has
become `[1, 0]`. -/
theorem metrics_mutate_counterexample :
    (recall' [1] (Kwargs.mk (some 2) none none)).2 ≠ [1] ∧
    (precision [1] (Kwargs.mk (some 2) none none)).2 ≠ [1] ∧
    (NDCG [1] (Kwargs.mk (some 2) none none)).2 ≠ [1] := by
  refine ⟨by decide, by decide, ?_⟩
  simp [NDCG]

/-- C1 amended: the metric functions mutate their input only by right-padding
it in place with zeros: the original vector is always a prefix of the post-call
vector, and whenever `limit` does not exceed the vector's length (in particular
with the default `limit`) the vector is returned exactly unchanged. -/
theorem metrics_pad_semantics (v : List ℤ) (kw : Kwargs) :
    ((recall' v kw).2.take v.length = v ∧ (precision v kw).2.take v.length = v ∧
      (NDCG v kw).2.take v.length = v) ∧
    (kw.limit.getD (v.length : ℤ) ≤ (v.length : ℤ) →
      (recall' v kw).2 = v ∧ (precision v kw).2 = v ∧ (NDCG v kw).2 = v) :=
  ⟨⟨padded_state_take v _, padded_state_take v _, padded_state_take v _⟩,
    fun h => ⟨padded_state_of_le v _ h, padded_state_of_le v _ h, padded_state_of_le v _ h⟩⟩

/-- Witness for `metrics_pad_semantics` at `v = [5]`, `limit = 1`. -/
theorem metrics_pad_semantics_witness :
    (recall' [5] (Kwargs.mk (some 1) none none)).2 = [5] ∧
    (precision [5] (Kwargs.mk (some 1) none none)).2 = [5] ∧
    (NDCG [5] (Kwargs.mk (some 1) none none)).2 = [5] :=
  (metrics_pad_semantics [5] (Kwargs.mk (some 1) none none)).2 (by decide)

/-- C3 counterexample: on `v = [1]` with `limit = 3` and `nrel` unset, the
source `recall` defaults and clamps `nrel` against the original length `1`
(before the in-place padding) and returns `1`, while the claim's reading
(`nrel` defaulting to the padded length `3`) returns `1/3`; with an explicit
negative `nrel` the source returns `0.0` while the claim's reading divides. -/
theorem recall_nrel_counterexample :
    (recall' [1] (Kwargs.mk (some 3) none none)).1 = 1 ∧
    recallPerClaimC3 [1] (Kwargs.mk (some 3) none none) = 1/3 ∧
    ((1 : ℚ) ≠ 1/3) ∧
    (recall' [1] (Kwargs.mk none (some (-1)) none)).1 = 0 ∧
    recallPerClaimC3 [1] (Kwargs.mk none (some (-1)) none) = -1 := by
  refine ⟨?_, ?_, by norm_num, ?_, ?_⟩ <;>
    norm_num [recall', recallPerClaimC3, pyTake, List.take, List.foldl,
      List.replicate, List.filter]

/-- C3 amended: `recall(v, limit, nrel)` behaves as: `limit` defaults to
`len(v)`; `nrel` defaults to the original vector length and is clamped so it
does not exceed the original (pre-padding) length; `v` is right-padded with
zeros to length `limit` if shorter; the numerator is the sum of values `> 0`
over the slice `rank[:limit+1]`; the result is `numerator / nrel` when
`nrel > 0`, and `0.0` otherwise. -/
theorem recall_value_spec (v : List ℤ) (kw : Kwargs) :
    (recall' v kw).1 = recallSpecAmended v kw := by
  simp only [recall', recallSpecAmended]
  have hpad : (if (v.length : ℤ) < kw.limit.getD (v.length : ℤ) then
        v ++ List.replicate (kw.limit.getD (v.length : ℤ) - v.length).toNat 0 else v)
      = v ++ List.replicate (kw.limit.getD (v.length : ℤ) - v.length).toNat 0 := by
    split
    · rfl
    · rename_i h
      have h0 : (kw.limit.getD (v.length : ℤ) - (v.length : ℤ)).toNat = 0 := by omega
      simp [h0]
  have hmin : (if kw.nrel.getD (v.length : ℚ) > (v.length : ℚ) then ((v.length : ℚ))
        else kw.nrel.getD (v.length : ℚ))
      = min (kw.nrel.getD (v.length : ℚ)) (v.length : ℚ) := by
    rw [min_def]
    split <;> split <;> first | rfl | linarith
  rw [hpad, hmin, foldl_sum_pos, zero_add]

/-- C5 counterexample: `ndcg` checks the empty vector before validating
`nranks`, so with `rel = []` and `nranks = 0 < 1` it returns `0.0` instead of
failing with `InvalidArgument`. -/
theorem ndcg_empty_counterexample :
    ndcg [] 0 true = Except.ok 0 ∧
    ndcg [] 0 true ≠ Except.error (AErr.invalidArgument "nranks < 1") :=
  ⟨rfl, by simp [ndcg]⟩

/-- C5 amended: for every *non-empty* relevance vector and every `nranks < 1`,
`ndcg` fails with the `InvalidArgument` error `'nranks < 1'`; for the empty
vector it returns `0.0` without validating `nranks`. -/
theorem ndcg_nranks_validation (rel : List ℤ) (nranks : ℤ) (alternate : Bool)
    (hne : rel ≠ []) (hn : nranks < 1) :
    ndcg rel nranks alternate = Except.error (AErr.invalidArgument "nranks < 1") ∧
    ndcg [] nranks alternate = Except.ok 0 := by
  constructor
  · have hlen : ¬ rel.length < 1 := by
      have := List.length_pos.mpr hne
      omega
    simp [ndcg, hlen, hn]
  · simp [ndcg]

/-- Witness for `ndcg_nranks_validation` at `rel = [1]`, `nranks = 0`. -/
theorem ndcg_nranks_validation_witness :
    ndcg [1] 0 true = Except.error (AErr.invalidArgument "nranks < 1") ∧
    ndcg [] 0 true = Except.ok 0 :=
  ndcg_nranks_validation [1] 0 true (by decide) (by decide)


/-- C7: for every non-empty relevance vector `v`, `precision` called with
`limit = len(v)` returns a value in `[0, 1]`. -/
theorem precision_unit_interval (v : List ℤ) (hv : v ≠ []) :
    0 ≤ (precision v (Kwargs.mk (some (v.length : ℤ)) none none)).1 ∧
    (precision v (Kwargs.mk (some (v.length : ℤ)) none none)).1 ≤ 1 := by
  have hlen : 0 < v.length := List.length_pos.mpr hv
  have hval : (precision v (Kwargs.mk (some (v.length : ℤ)) none none)).1
      = ((v.filter fun h => 0 < h).length : ℚ) / (v.length : ℚ) := by
    simp only [precision, Option.getD_some]
    rw [if_neg (lt_irrefl _)]
    have htake : pyTake v ((v.length : ℤ) + 1) = v := by
      have h2 : ((v.length : ℤ) + 1).toNat = v.length + 1 := by omega
      rw [pyTake, if_pos (by positivity), h2]
      exact List.take_of_length_le (Nat.le_succ _)
    rw [htake, if_pos (by exact_mod_cast hlen), foldl_count_pos, zero_add]
    push_cast
    ring
  rw [hval]
  constructor
  · positivity
  · rw [div_le_one (by exact_mod_cast hlen)]
    exact_mod_cast List.length_filter_le _ v

/-- Witness for `precision_unit_interval` at `v = [1]`. -/
theorem precision_unit_interval_witness :
    0 ≤ (precision [1] (Kwargs.mk (some (([1] : List ℤ).length : ℤ)) none none)).1 ∧
    (precision [1] (Kwargs.mk (some (([1] : List ℤ).length : ℤ)) none none)).1 ≤ 1 :=
  precision_unit_interval [1] (by decide)


/-- C2 counterexample: with the graded judgment `{1: 2}` the truth function
`lambda x: qrel[x]` raises `KeyError` on the absent id `2` instead of
returning `0` (the code does `qrel[x]`, not `qrel.get(x, 0)`). -/
theorem truth_keyerror_counterexample :
    truth (Qrel.graded [(1, 2)]) 2 = Except.error AErr.keyError ∧
    truth (Qrel.graded [(1, 2)]) 2 ≠ Except.ok 0 :=
  ⟨rfl, fun h => nomatch h⟩

/-- C2 amended: for a mapping-style judgment the truth function returns the
grade of every id present in the judgment, but *fails with `KeyError`* for an
absent id; the relevance vector is the truth value of each hit in rank order,
and is only produced when every hit is judged. -/
theorem truth_graded_semantics (m : List (ℕ × ℤ)) (x : ℕ) (names : List ℕ) :
    (∀ v, m.lookup x = some v → truth (Qrel.graded m) x = Except.ok v) ∧
    (m.lookup x = none → truth (Qrel.graded m) x = Except.error AErr.keyError) ∧
    ((∀ nm ∈ names, (m.lookup nm).isSome) →
      collectE (truth (Qrel.graded m)) names
        = Except.ok (names.map fun nm => (m.lookup nm).getD 0)) := by
  refine ⟨fun v hv => by simp [truth, hv], fun hn => by simp [truth, hn], ?_⟩
  intro hall
  induction names with
  | nil => simp [collectE]
  | cons nm t ih =>
    have hm : (m.lookup nm).isSome := hall nm (by simp)
    obtain ⟨v, hv⟩ := Option.isSome_iff_exists.mp hm
    have ht := ih (fun a ha => hall a (by simp [ha]))
    simp [collectE, truth, hv, ht]

/-- Witness for `truth_graded_semantics` on the judgment `{1: 2}` with the
single hit `1`. -/
theorem truth_graded_semantics_witness :
    truth (Qrel.graded [(1, 2)]) 1 = Except.ok 2 ∧
    collectE (truth (Qrel.graded [(1, 2)])) [1] = Except.ok [2] := by
  refine ⟨(truth_graded_semantics [(1, 2)] 1 [1]).1 2 (by simp), ?_⟩
  have h := (truth_graded_semantics [(1, 2)] 1 [1]).2.2 (by simp)
  simpa using h


lemma splitOnChar_of_not_mem (c : Char) (l : List Char) (h : c ∉ l) :
    splitOnChar c l = [l] := by
  induction l with
  | nil => rfl
  | cons x xs ih =>
    have hx : x ≠ c := fun he => h (he ▸ List.mem_cons_self x xs)
    have hxs : c ∉ xs := fun hm => h (List.mem_cons_of_mem _ hm)
    simp [splitOnChar, hx, ih hxs]

/-- `s.split(sep)` around the first separator occurrence. -/
lemma splitOnChar_append (c : Char) (xs ys : List Char) (h : c ∉ xs) :
    splitOnChar c (xs ++ c :: ys) = xs :: splitOnChar c ys := by
  induction xs with
  | nil => simp [splitOnChar]
  | cons x t ih =>
    have hx : x ≠ c := fun he => h (he ▸ List.mem_cons_self x t)
    have ht : c ∉ t := fun hm => h (List.mem_cons_of_mem _ hm)
    have hne : splitOnChar c (t ++ c :: ys) = t :: splitOnChar c ys := ih ht
    simp [splitOnChar, hx, hne]

/-- Reading back a rendered decimal digit. -/
lemma pyDigit?_table (d : ℕ) (hd : d < 10) :
    pyDigit? ("0123456789".toList.getD d '0') = some d := by
  interval_cases d <;> decide

/-- A decimal digit character is not `'@'`. -/
lemma table_ne_at (d : ℕ) (hd : d < 10) :
    "0123456789".toList.getD d '0' ≠ '@' := by
  interval_cases d <;> decide

/-- `int(…)` accumulation over a rendered digit string. -/
lemma parseNatCore_digits (ds : List ℕ) (h : ∀ d ∈ ds, d < 10) (a : ℕ) :
    (ds.reverse.map (fun d => "0123456789".toList.getD d '0')).foldl
      (fun acc c =>
        match acc, pyDigit? c with
        | some a, some d => some (a * 10 + d)
        | _, _ => none)
      (some a) = some (a * 10 ^ ds.length + Nat.ofDigits 10 ds) := by
  induction ds generalizing a with
  | nil => simp
  | cons d t ih =>
    have hd : d < 10 := h d (by simp)
    have ht : ∀ x ∈ t, x < 10 := fun x hx => h x (by simp [hx])
    rw [List.reverse_cons, List.map_append, List.foldl_append, ih ht a]
    simp only [List.map_cons, List.map_nil, List.foldl_cons, List.foldl_nil,
      pyDigit?_table d hd]
    rw [Nat.ofDigits_cons]
    congr 1
    simp [pow_succ]
    ring

/-- `int(str(k)) == k` for the digit core. -/
lemma parseNatCore_natChars (k : ℕ) : parseNatCore (natChars k) = some k := by
  by_cases hk : k = 0
  · subst hk; decide
  · rw [natChars, if_neg hk, parseNatCore,
      parseNatCore_digits (Nat.digits 10 k) (fun d hd => Nat.digits_lt_base (by norm_num) hd) 0]
    simp [Nat.ofDigits_digits]
/-- Every character of a rendered number is a decimal digit. -/
lemma natChars_subset (k : ℕ) : ∀ c ∈ natChars k, c ∈ "0123456789".toList := by
  intro c hc
  by_cases hk : k = 0
  · subst hk
    simp only [natChars, if_pos] at hc
    simp at hc
    subst hc; decide
  · rw [natChars, if_neg hk] at hc
    obtain ⟨d, hd, rfl⟩ := List.mem_map.mp hc
    have hlt : d < 10 := Nat.digits_lt_base (by norm_num) (List.mem_reverse.mp hd)
    interval_cases d <;> decide

/-- A rendered number contains no `'@'`. -/
lemma natChars_no_at (k : ℕ) : '@' ∉ natChars k := by
  intro h
  have h2 := natChars_subset k _ h
  revert h2
  decide

/-- A rendered number is never the empty string. -/
lemma natChars_ne_nil (k : ℕ) : natChars k ≠ [] := by
  by_cases hk : k = 0
  · subst hk; decide
  · rw [natChars, if_neg hk]
    simp [Nat.digits_ne_nil_iff_ne_zero.mpr hk]

/-- `int(str(k)) == k`. -/
lemma pyInt?_natChars (k : ℕ) : pyInt? (natChars k) = some (k : ℤ) := by
  have hne := natChars_ne_nil k
  have hh : (natChars k).headD ' ' ≠ '-' := by
    cases hnc : natChars k with
    | nil => exact absurd hnc hne
    | cons c cs =>
      have hcm : c ∈ natChars k := by rw [hnc]; simp
      have hmem := natChars_subset k c hcm
      simp only [List.headD]
      intro he
      rw [he] at hmem
      revert hmem
      decide
  rw [pyInt?, if_neg hne, if_neg hh, parseNatCore_natChars]
  rfl

/-- C9: parsing the metric spec `name@k`: for `k = 0` the parsed limit is not
set at all (`if k:` is falsy), so the kwargs keep `limit = None` and the
metric runs with its default limit; for every `k ≥ 1` the kwargs get
`limit = k`. -/
theorem metric_at_k_limit (name : List Char) (k : ℕ) (kw : Kwargs)
    (hname : '@' ∉ name) (hkw : kw.limit = none) :
    (k = 0 → metric_handle (name ++ '@' :: natChars k) kw = Except.ok (name, kw)
      ∧ kw.limit = none) ∧
    (1 ≤ k → metric_handle (name ++ '@' :: natChars k) kw
      = Except.ok (name, { kw with limit := some (k : ℤ) })) := by
  have hmem : '@' ∈ name ++ '@' :: natChars k := by simp
  have hsplit : splitOnChar '@' (name ++ '@' :: natChars k) = [name, natChars k] := by
    rw [splitOnChar_append _ _ _ hname, splitOnChar_of_not_mem _ _ (natChars_no_at k)]
  have hs : split_limit (name ++ '@' :: natChars k) = .ok (name, some (k : ℤ)) := by
    rw [split_limit, if_pos hmem, hsplit]
    simp [pyInt?_natChars]
  constructor
  · rintro rfl
    refine ⟨?_, hkw⟩
    simp [metric_handle, hs, pyTruthy]
  · intro hk1
    have htr : pyTruthy (some (k : ℤ)) = true := by
      simp only [pyTruthy, bne_iff_ne]
      intro hz
      omega
    simp [metric_handle, hs, htr]
/-- Witness for `metric_at_k_limit` at `recall@0` and `recall@3`. -/
theorem metric_at_k_limit_witness :
    metric_handle ("recall".toList ++ '@' :: natChars 0) (Kwargs.mk none none none)
      = Except.ok ("recall".toList, Kwargs.mk none none none) ∧
    metric_handle ("recall".toList ++ '@' :: natChars 3) (Kwargs.mk none none none)
      = Except.ok ("recall".toList, { Kwargs.mk none none none with limit := some 3 }) := by
  refine ⟨((metric_at_k_limit "recall".toList 0 (Kwargs.mk none none none) (by decide) rfl).1 rfl).1, ?_⟩
  have h := (metric_at_k_limit "recall".toList 3 (Kwargs.mk none none none) (by decide) rfl).2 (by norm_num)
  simpa using h

lemma collectE_ok_length {ε α β : Type} (f : α → Except ε β) :
    ∀ (l : List α) (ys : List β), collectE f l = .ok ys → ys.length = l.length := by
  intro l
  induction l with
  | nil => intro ys h; simp [collectE] at h; simp [← h]
  | cons x t ih =>
    intro ys h
    simp only [collectE] at h
    cases hx : f x with
    | error e => rw [hx] at h; simp at h
    | ok y =>
      rw [hx] at h
      cases hrec : collectE f t with
      | error e => rw [hrec] at h; simp at h
      | ok ys' =>
        rw [hrec] at h
        simp at h
        simp [← h, ih ys' hrec]

lemma collectE_map_of_ok {ε α β : Type} (f : α → Except ε β) (g : α → β) :
    ∀ (l : List α), (∀ x ∈ l, f x = .ok (g x)) → collectE f l = .ok (l.map g) := by
  intro l
  induction l with
  | nil => intro _; rfl
  | cons x t ih =>
    intro h
    have hx := h x (by simp)
    have ht := ih (fun a ha => h a (by simp [ha]))
    simp [collectE, hx, ht]

lemma collectE_error_head {ε α β : Type} (f : α → Except ε β) (x : α) (t : List α)
    (e : ε) (h : f x = .error e) : collectE f (x :: t) = .error e := by
  simp [collectE, h]

lemma collectE_cons_ok {ε α β : Type} (f : α → Except ε β) (x : α) (t : List α)
    (ys : List β) (h : collectE f (x :: t) = .ok ys) :
    ∃ y ys', f x = .ok y ∧ collectE f t = .ok ys' ∧ ys = y :: ys' := by
  simp only [collectE] at h
  cases hx : f x with
  | error e => rw [hx] at h; simp at h
  | ok y =>
    rw [hx] at h
    cases hrec : collectE f t with
    | error e => rw [hrec] at h; simp at h
    | ok ys' =>
      rw [hrec] at h
      simp at h
      exact ⟨y, ys', rfl, rfl, h.symm⟩

lemma effectiveMetrics_ne_nil (ma : Option (List (List Char))) :
    effectiveMetrics ma ≠ [] := by
  rcases ma with _ | l
  · simp [effectiveMetrics, DEFAULT_METRIC_LIST]
  · by_cases hl : l = []
    · simp [effectiveMetrics, hl, DEFAULT_METRIC_LIST]
    · simp [effectiveMetrics, hl]
lemma metricsPass_length (hs : List (MetricFn × Kwargs)) :
    ∀ (es : List ℝ) (v : List ℤ) (nr : ℚ) (t : List ℝ),
      es.length = hs.length → metricsPass hs es v nr = .ok t → t.length = hs.length := by
  induction hs with
  | nil =>
    intro es v nr t _ h
    simp only [metricsPass] at h
    simp at h
    simp [← h]
  | cons hd tl ih =>
    intro es v nr t hlen h
    cases es with
    | nil => simp at hlen
    | cons e es' =>
      simp only [metricsPass] at h
      cases hr : (hd.1 v { hd.2 with nrel := some nr }).1 with
      | error err => rw [hr] at h; simp at h
      | ok val =>
        rw [hr] at h
        cases hrec : metricsPass tl es' (hd.1 v { hd.2 with nrel := some nr }).2 nr with
        | error e2 => rw [hrec] at h; simp [Except.map] at h
        | ok tail =>
          rw [hrec] at h
          simp [Except.map] at h
          have := ih es' _ nr tail (by simpa using hlen) hrec
          simp [← h, this]

lemma metricsPass_shift (hs : List (MetricFn × Kwargs)) :
    ∀ (es : List ℝ) (v : List ℤ) (nr : ℚ), es.length = hs.length →
      metricsPass hs es v nr
        = (metricsPass hs (List.replicate hs.length 0) v nr).map
            (fun t => es.zipWith (· + ·) t) := by
  induction hs with
  | nil =>
    intro es v nr hlen
    have : es = [] := List.length_eq_zero.mp (by simpa using hlen)
    subst this
    rfl
  | cons hd tl ih =>
    intro es v nr hlen
    cases es with
    | nil => simp at hlen
    | cons e es' =>
      have hlen' : es'.length = tl.length := by simpa using hlen
      simp only [metricsPass, List.length_cons, List.replicate]
      cases hr : (hd.1 v { hd.2 with nrel := some nr }).1 with
      | error err => simp [hr, Except.map]
      | ok val =>
        rw [ih es' _ nr hlen']
        cases hb : metricsPass tl (List.replicate tl.length 0)
            (hd.1 v { hd.2 with nrel := some nr }).2 nr with
        | error e2 => simp [hb, Except.map]
        | ok tail => simp [hb, Except.map]
lemma query_pass_length (hs : List (MetricFn × Kwargs)) (sf : ℕ → List ℕ)
    (q : ℕ × Qrel) (vs : List ℝ) (h : query_pass hs sf q = .ok vs) :
    vs.length = hs.length := by
  simp only [query_pass, bind, Except.bind] at h
  cases hc : collectE (truth q.2) (extract_hits (sf q.1)) with
  | error e => rw [hc] at h; simp at h
  | ok hitsEv =>
    rw [hc] at h
    exact metricsPass_length hs _ hitsEv _ vs (by simp) h

lemma queryStep_eq (hs : List (MetricFn × Kwargs)) (sf : ℕ → List ℕ)
    (st : List ℝ × ℚ) (q : ℕ × Qrel) (hlen : st.1.length = hs.length) :
    queryStep hs sf st q
      = (query_pass hs sf q).map (fun vs => (st.1.zipWith (· + ·) vs, st.2 + 1)) := by
  simp only [queryStep, query_pass, bind, Except.bind]
  cases hc : collectE (truth q.2) (extract_hits (sf q.1)) with
  | error e => simp [Except.map]
  | ok hitsEv =>
    dsimp only
    rw [metricsPass_shift hs st.1 hitsEv _ hlen]
    cases hb : metricsPass hs (List.replicate hs.length 0) hitsEv (qrelLen q.2) with
    | error e => simp [Except.map]
    | ok vs => simp [Except.map, pure, Except.pure]

lemma foldlE_queryStep (hs : List (MetricFn × Kwargs)) (sf : ℕ → List ℕ) :
    ∀ (batch : List (ℕ × Qrel)) (pv : List (List ℝ)) (es : List ℝ) (r : ℚ),
      collectE (query_pass hs sf) batch = .ok pv → es.length = hs.length →
      foldlE (queryStep hs sf) (es, r) batch
        = .ok (pv.foldl (fun acc l => acc.zipWith (· + ·) l) es, r + batch.length) := by
  intro batch
  induction batch with
  | nil =>
    intro pv es r h _
    simp only [collectE] at h
    simp at h
    subst h
    simp [foldlE]
  | cons q t ih =>
    intro pv es r h hlen
    obtain ⟨v0, pv', hq0, hrest, rfl⟩ := collectE_cons_ok _ q t pv h
    have hv0len : v0.length = hs.length := query_pass_length hs sf q v0 hq0
    have hstep : queryStep hs sf (es, r) q = .ok (es.zipWith (· + ·) v0, r + 1) := by
      rw [queryStep_eq hs sf (es, r) q (by simpa using hlen), hq0]
      simp [Except.map]
    have hzlen : (es.zipWith (· + ·) v0).length = hs.length := by
      simp [List.length_zipWith, hlen, hv0len]
    simp only [foldlE, hstep]
    rw [ih pv' _ (r + 1) hrest hzlen]
    simp only [List.foldl_cons, List.length_cons]
    congr 2
    push_cast
    ring
/-- C8: multi-query evaluation over an empty query batch fails with
`DivisionByZeroError` (`evaluation[metric] /= ratio` with `ratio == 0.0`,
surfaced, not replaced by 0); over a non-empty batch of `q` queries it
returns, for each requested metric, the sum of that metric's per-query values
divided by `q`. -/
theorem multiquery_mean (sf : ℕ → List ℕ) (batch : List (ℕ × Qrel))
    (ma : Option (List (List Char))) (kw : Kwargs)
    (hs : List (MetricFn × Kwargs)) (pv : List (List ℝ))
    (hh : buildHandles (effectiveMetrics ma) kw = .ok hs)
    (hq : collectE (query_pass hs sf) batch = .ok pv) :
    multiquery_search sf [] ma kw = .error .divisionByZero ∧
    (batch ≠ [] → multiquery_search sf batch ma kw
      = .ok ((effectiveMetrics ma).zip
          ((sumVecs (effectiveMetrics ma).length pv).map
            (fun s => s / ((batch.length : ℚ) : ℝ))))) := by
  have hlen : hs.length = (effectiveMetrics ma).length := collectE_ok_length _ _ _ hh
  constructor
  · have hne := effectiveMetrics_ne_nil ma
    simp only [multiquery_search, hh, bind, Except.bind, foldlE]
    cases hmet : effectiveMetrics ma with
    | nil => exact absurd hmet hne
    | cons m0 mt => simp [collectE]
  · intro hbne
    have hblen : (batch.length : ℚ) ≠ 0 := by
      have h0 : batch.length ≠ 0 := by
        simpa [List.length_eq_zero] using hbne
      exact_mod_cast h0
    simp only [multiquery_search, hh, bind, Except.bind]
    rw [foldlE_queryStep hs sf batch pv _ 0 hq (by simp [hlen])]
    dsimp only
    rw [collectE_map_of_ok _
      (fun p => (p.1, p.2 / ((((0 : ℚ) + (batch.length : ℚ)) : ℚ) : ℝ))) _
      (fun x _ => by rw [if_neg (by simpa using hblen)])]
    simp only [zero_add, pure, Except.pure, sumVecs]
    congr 1
    rw [List.zip_map_right]
    refine List.map_congr_left ?_
    intro a _
    cases a
    rfl

/-- Witness for `multiquery_mean`: one query, one relevant hit, metric
`precision@3`. -/
theorem multiquery_mean_witness :
    multiquery_search (fun _ => [5]) [] (some ["precision@3".toList]) (Kwargs.mk none none none)
      = .error .divisionByZero ∧
    multiquery_search (fun _ => [5]) [(0, Qrel.set [5])] (some ["precision@3".toList])
        (Kwargs.mk none none none)
      = .ok ((effectiveMetrics (some ["precision@3".toList])).zip
          ((sumVecs (effectiveMetrics (some ["precision@3".toList])).length
            [[(0 : ℝ) + (((precision [1] (Kwargs.mk (some 3) (some 1) none)).1 : ℝ))]]).map
            (fun s => s / (((([(0, Qrel.set [5])] : List (ℕ × Qrel)).length : ℚ)) : ℝ)))) := by
  have h := multiquery_mean (fun _ => [5]) [(0, Qrel.set [5])]
      (some ["precision@3".toList]) (Kwargs.mk none none none)
      [(fun v kw => (Except.ok (((precision v kw).1 : ℝ)), (precision v kw).2),
        Kwargs.mk (some 3) none none)]
      [[(0 : ℝ) + (((precision [1] (Kwargs.mk (some 3) (some 1) none)).1 : ℝ))]] rfl rfl
  exact ⟨h.1, h.2 (by decide)⟩

lemma buildList_length {α : Type} (n : ℕ) (f : ℕ → α) : (buildList n f).length = n := by
  simp [buildList]

lemma buildList_getD {α : Type} (n : ℕ) (f : ℕ → α) (i : ℕ) (d : α) (h : i < n) :
    (buildList n f).getD i d = f i := by
  rw [List.getD_eq_getElem _ _ (by simpa [buildList_length] using h)]
  simp [buildList]

lemma map_getD_self {α : Type} (l : List α) (d : α) :
    (List.range l.length).map (fun i => l.getD i d) = l := by
  apply List.ext_getElem
  · simp
  · intro i h1 h2
    simp [List.getD_eq_getElem _ _ h2, List.getElem?_eq_getElem h2]

lemma buildList_eq_map {α β : Type} (l : List α) (g : α → β) (d : α) :
    buildList l.length (fun i => g (l.getD i d)) = l.map g := by
  have := congrArg (List.map g) (map_getD_self l d)
  rw [← this]
  simp [buildList, Function.comp]

lemma argsort_perm (data : List ℤ) : List.Perm (argsort data) (List.range data.length) :=
  List.perm_insertionSort _ _

lemma argsort_sorted (data : List ℤ) : (argsort data).Sorted (argsortRel data) :=
  List.sorted_insertionSort _ _

lemma argsort_eq_of (data : List ℤ) (L : List ℕ)
    (hperm : List.Perm L (List.range data.length)) (hsort : L.Sorted (argsortRel data)) :
    argsort data = L :=
  List.eq_of_perm_of_sorted ((argsort_perm data).trans hperm.symm)
    (argsort_sorted data) hsort
lemma foldlE_ok_of {ε σ α : Type} (f : σ → α → Except ε σ) (g : σ → α → σ) :
    ∀ (l : List α) (s : σ), (∀ s' x, x ∈ l → f s' x = .ok (g s' x)) →
      foldlE f s l = .ok (l.foldl g s) := by
  intro l
  induction l with
  | nil => intro s _; rfl
  | cons x t ih =>
    intro s h
    simp only [foldlE, h s x (by simp), List.foldl_cons]
    exact ih (g s x) (fun s' y hy => h s' y (by simp [hy]))

lemma foldl_pair_fst {α : Type} (pos : α → ℕ) (val : α → ℤ) :
    ∀ (l : List α) (acc : List ℤ) (b : Bool),
      l.foldl (fun (st : List ℤ × Bool) x => (st.1.set (pos x) (val x), st.2)) (acc, b)
        = (l.foldl (fun a x => a.set (pos x) (val x)) acc, b) := by
  intro l
  induction l with
  | nil => intro acc b; rfl
  | cons x t ih => intro acc b; simp only [List.foldl_cons, ih]

lemma foldl_set_length (l : List (ℕ × ℤ)) (acc : List ℤ) :
    (l.foldl (fun a pv => a.set pv.1 pv.2) acc).length = acc.length := by
  induction l generalizing acc with
  | nil => rfl
  | cons x t ih => simp [List.foldl_cons, ih]

lemma foldl_set_not_mem (l : List (ℕ × ℤ)) (acc : List ℤ) (p : ℕ) (d : ℤ)
    (h : p ∉ l.map Prod.fst) :
    (l.foldl (fun a pv => a.set pv.1 pv.2) acc).getD p d = acc.getD p d := by
  induction l generalizing acc with
  | nil => rfl
  | cons x t ih =>
    have hne : x.1 ≠ p := fun he => h (by simp [← he])
    have ht : p ∉ t.map Prod.fst := fun hm => h (by simp [hm])
    rw [List.foldl_cons, ih _ ht]
    simp [List.getD_eq_getElem?_getD, List.getElem?_set_ne hne]

lemma foldl_set_eval (l : List (ℕ × ℤ)) (hnd : (l.map Prod.fst).Nodup) :
    ∀ (acc : List ℤ) (p : ℕ) (v : ℤ), (p, v) ∈ l → p < acc.length →
      (l.foldl (fun a pv => a.set pv.1 pv.2) acc).getD p 0 = v := by
  induction l with
  | nil => intro acc p v hm; simp at hm
  | cons x t ih =>
    intro acc p v hm hp
    rcases List.mem_cons.mp hm with he | ht
    · subst he
      have hnp : p ∉ t.map Prod.fst := by
        simp only [List.map_cons, List.nodup_cons] at hnd
        exact hnd.1
      rw [List.foldl_cons, foldl_set_not_mem t _ p 0 hnp]
      simp [List.getD_eq_getElem?_getD, List.getElem?_set_self', hp]
    · have hnd' : (t.map Prod.fst).Nodup := by
        simp only [List.map_cons, List.nodup_cons] at hnd
        exact hnd.2
      rw [List.foldl_cons]
      exact ih hnd' _ p v ht (by simpa using hp)
lemma rank_score_ok (n : ℕ) (row : List ℤ)
    (hmem : ∀ i, i < n → 1 ≤ row.getD i 0 ∧ row.getD i 0 ≤ (n : ℤ)) :
    rank_score n row
      = .ok ((List.range n).foldl
          (fun a i => a.set (row.getD i 0 - 1).toNat ((n : ℤ) - ((i : ℤ) + 1)))
          (List.replicate n 0)) := by
  have hfold := foldlE_ok_of
    (fun (st : List ℤ × Bool) (i : ℕ) =>
      let x := row.getD i 0
      if x - 1 < 0 then .ok (st.1, true)
      else if (n : ℤ) ≤ x - 1 then .error (AErr.indexError)
      else .ok (st.1.set (x - 1).toNat ((n : ℤ) - ((i : ℤ) + 1)), st.2))
    (fun (st : List ℤ × Bool) (i : ℕ) =>
      (st.1.set ((row.getD i 0) - 1).toNat ((n : ℤ) - ((i : ℤ) + 1)), st.2))
    (List.range n) (List.replicate n 0, false)
    (by
      intro s' i hi
      have hx := hmem i (List.mem_range.mp hi)
      dsimp only
      rw [if_neg (by omega), if_neg (by omega)])
  simp only [rank_score, bind, Except.bind, hfold]
  rw [foldl_pair_fst (fun i => ((row.getD i 0) - 1).toNat)
    (fun i => (n : ℤ) - ((i : ℤ) + 1)) (List.range n) (List.replicate n 0) false]
  simp

lemma length_foldl_setf (pos : ℕ → ℕ) (val : ℕ → ℤ) :
    ∀ (l : List ℕ) (acc : List ℤ),
      (l.foldl (fun a i => a.set (pos i) (val i)) acc).length = acc.length := by
  intro l
  induction l with
  | nil => intro acc; rfl
  | cons x t ih => intro acc; simp [List.foldl_cons, ih]

lemma rank_score_length (n : ℕ) (row : List ℤ)
    (hmem : ∀ i, i < n → 1 ≤ row.getD i 0 ∧ row.getD i 0 ≤ (n : ℤ)) (borda : List ℤ)
    (hok : rank_score n row = .ok borda) : borda.length = n := by
  rw [rank_score_ok n row hmem] at hok
  have h2 := Except.ok.inj hok
  rw [← h2, length_foldl_setf]
  simp
lemma foldl_set_as_pairs (pos : ℕ → ℕ) (val : ℕ → ℤ) (l : List ℕ) (acc : List ℤ) :
    l.foldl (fun a i => a.set (pos i) (val i)) acc
      = (l.map (fun i => (pos i, val i))).foldl (fun a pv => a.set pv.1 pv.2) acc := by
  induction l generalizing acc with
  | nil => rfl
  | cons x t ih => simp [List.foldl_cons, ih]

lemma range_map_getD_fn {β : Type} (row : List ℤ) (g : ℤ → β) :
    (List.range row.length).map (fun i => g (row.getD i 0)) = row.map g := by
  have h := buildList_eq_map row g 0
  simpa [buildList] using h

lemma rank_score_getD (n : ℕ) (row : List ℤ) (hlen : row.length = n) (hnd : row.Nodup)
    (hmem : ∀ x ∈ row, 1 ≤ x ∧ x ≤ (n : ℤ)) (i : ℕ) (hi : i < n) (borda : List ℤ)
    (hok : rank_score n row = .ok borda) :
    borda.getD (row.getD i 0 - 1).toNat 0 = (n : ℤ) - ((i : ℤ) + 1) := by
  have hmem' : ∀ j, j < n → 1 ≤ row.getD j 0 ∧ row.getD j 0 ≤ (n : ℤ) := by
    intro j hj
    have hjl : j < row.length := by omega
    rw [List.getD_eq_getElem _ _ hjl]
    exact hmem _ (List.getElem_mem hjl)
  rw [rank_score_ok n row hmem'] at hok
  have h2 := Except.ok.inj hok
  subst h2
  rw [foldl_set_as_pairs (fun i => (row.getD i 0 - 1).toNat)
    (fun i => (n : ℤ) - ((i : ℤ) + 1))]
  have hfst : ((List.range n).map
      (fun i => ((row.getD i 0 - 1).toNat, (n : ℤ) - ((i : ℤ) + 1)))).map Prod.fst
      = row.map (fun x => (x - 1).toNat) := by
    rw [List.map_map]
    have := range_map_getD_fn row (fun x => (x - 1).toNat)
    rw [hlen] at this
    exact this
  apply foldl_set_eval
  · rw [hfst]
    refine List.Nodup.map_on ?_ hnd
    intro x hx y hy he
    have hx' := hmem x hx
    have hy' := hmem y hy
    omega
  · exact List.mem_map.mpr ⟨i, List.mem_range.mpr hi, rfl⟩
  · have hb := hmem' i hi
    simp only [List.length_replicate]
    omega

lemma bordaRow_perm (docsE : List ℕ) (r : List ℕ) (hdnd : docsE.Nodup) (hnd : r.Nodup)
    (hsub : ∀ d ∈ r, d ∈ docsE) :
    List.Perm (bordaRow docsE r) ((List.range' 1 docsE.length).map (fun x : ℕ => (x : ℤ))) := by
  classical
  set n := docsE.length with hn
  set rank_ids : List ℤ := r.map (fun d => (docsE.indexOf d : ℤ) + 1) with hri
  set padding : List ℤ := ((List.range' 1 n).filter
    (fun x : ℕ => ¬ (x : ℤ) ∈ rank_ids)).map (fun x : ℕ => (x : ℤ)) with hpad
  have hrow : bordaRow docsE r = rank_ids ++ padding := rfl
  have hridnd : rank_ids.Nodup := by
    refine List.Nodup.map_on ?_ hnd
    intro x hx y hy he
    have hx' := hsub x hx
    have hy' := hsub y hy
    have : docsE.indexOf x = docsE.indexOf y := by omega
    exact (List.indexOf_inj hx' hy').mp this
  have hrange : (List.range' 1 n).Nodup := by simp [List.nodup_range']
  have hpadnd : padding.Nodup := by
    refine List.Nodup.map (fun a b hab => by omega) ?_
    exact List.Nodup.filter _ hrange
  have happnd : (rank_ids ++ padding).Nodup := by
    refine List.Nodup.append hridnd hpadnd ?_
    intro a ha hb
    obtain ⟨x, hx, rfl⟩ := List.mem_map.mp hb
    have := (List.mem_filter.mp hx).2
    simp only [decide_not, Bool.not_eq_true', decide_eq_false_iff_not] at this
    exact this ha
  have hunodup : ((List.range' 1 n).map (fun x : ℕ => (x : ℤ))).Nodup :=
    List.Nodup.map (fun a b hab => by omega) hrange
  rw [hrow, List.perm_ext_iff_of_nodup happnd hunodup]
  intro a
  constructor
  · intro ha
    rcases List.mem_append.mp ha with h | h
    · obtain ⟨d, hd, rfl⟩ := List.mem_map.mp h
      have hmem : d ∈ docsE := hsub d hd
      have hlt : docsE.indexOf d < n := List.indexOf_lt_length.mpr hmem
      refine List.mem_map.mpr ⟨docsE.indexOf d + 1, ?_, by push_cast; ring⟩
      exact List.mem_range'_1.mpr (by omega)
    · obtain ⟨x, hx, rfl⟩ := List.mem_map.mp h
      exact List.mem_map.mpr ⟨x, (List.mem_filter.mp hx).1, rfl⟩
  · intro ha
    obtain ⟨x, hx, rfl⟩ := List.mem_map.mp ha
    by_cases hin : ((x : ℤ)) ∈ rank_ids
    · exact List.mem_append.mpr (Or.inl hin)
    · refine List.mem_append.mpr (Or.inr (List.mem_map.mpr ⟨x, ?_, rfl⟩))
      refine List.mem_filter.mpr ⟨hx, ?_⟩
      simpa using hin

lemma bordaRow_length (docsE : List ℕ) (r : List ℕ) (hdnd : docsE.Nodup) (hnd : r.Nodup)
    (hsub : ∀ d ∈ r, d ∈ docsE) : (bordaRow docsE r).length = docsE.length := by
  have := (bordaRow_perm docsE r hdnd hnd hsub).length_eq
  simpa using this

lemma bordaRow_bounds (docsE : List ℕ) (r : List ℕ) (hdnd : docsE.Nodup) (hnd : r.Nodup)
    (hsub : ∀ d ∈ r, d ∈ docsE) (x : ℤ) (hx : x ∈ bordaRow docsE r) :
    1 ≤ x ∧ x ≤ (docsE.length : ℤ) := by
  have hmem := (bordaRow_perm docsE r hdnd hnd hsub).mem_iff.mp hx
  obtain ⟨y, hy, rfl⟩ := List.mem_map.mp hmem
  have := List.mem_range'_1.mp hy
  omega
lemma borda_run (docsE : List ℕ) (rankings : List (List ℕ))
    (hne : rankings ≠ []) (hdnd : docsE.Nodup)
    (hnd : ∀ r ∈ rankings, r.Nodup) (hsub : ∀ r ∈ rankings, ∀ d ∈ r, d ∈ docsE) :
    borda_rank_by_id docsE rankings
      = .ok (bordaTail docsE (buildList docsE.length (fun d =>
          ((rankings.map (fun r => (List.range docsE.length).foldl
            (fun (a : List ℤ) (i : ℕ) => a.set ((bordaRow docsE r).getD i 0 - 1).toNat
              ((docsE.length : ℤ) - ((i : ℤ) + 1))) (List.replicate docsE.length 0))).map
            (fun row => row.getD d 0)).sum))) := by
  have hlen0 : rankings.length > 0 := List.length_pos.mpr hne
  have h1 : collectE (fun (r : List ℕ) =>
      if (bordaRow docsE r).length = docsE.length then Except.ok (bordaRow docsE r)
      else Except.error (AErr.valueError "could not broadcast")) rankings
      = .ok (rankings.map (bordaRow docsE)) := by
    refine collectE_map_of_ok _ _ _ (fun r hr => ?_)
    simp only [if_pos (bordaRow_length docsE r hdnd (hnd r hr) (hsub r hr))]
  have h2 : collectE (rank_score docsE.length) (rankings.map (bordaRow docsE))
      = .ok ((rankings.map (bordaRow docsE)).map
          (fun row => (List.range docsE.length).foldl
            (fun (a : List ℤ) (i : ℕ) => a.set (row.getD i 0 - 1).toNat
              ((docsE.length : ℤ) - ((i : ℤ) + 1))) (List.replicate docsE.length 0))) := by
    refine collectE_map_of_ok _ _ _ (fun row hrow => ?_)
    obtain ⟨r, hr, rfl⟩ := List.mem_map.mp hrow
    refine rank_score_ok docsE.length (bordaRow docsE r) (fun i hi => ?_)
    have hil : i < (bordaRow docsE r).length := by
      rw [bordaRow_length docsE r hdnd (hnd r hr) (hsub r hr)]; exact hi
    rw [List.getD_eq_getElem _ _ hil]
    exact bordaRow_bounds docsE r hdnd (hnd r hr) (hsub r hr) _ (List.getElem_mem hil)
  rw [borda_rank_by_id, if_pos hlen0]
  simp only [bind, Except.bind, h1, h2, List.map_map, pure, Except.pure]
  rfl

lemma borda_ok_shape (docsE : List ℕ) (rankings : List (List ℕ)) (out : List (ℚ × ℕ))
    (hok : borda_rank_by_id docsE rankings = .ok out) :
    ∃ data : List ℤ, data.length = docsE.length ∧ out = bordaTail docsE data := by
  rw [borda_rank_by_id] at hok
  by_cases h0 : rankings.length > 0
  · rw [if_pos h0] at hok
    simp only [bind, Except.bind] at hok
    cases h1 : collectE (fun (r : List ℕ) =>
        if (bordaRow docsE r).length = docsE.length then Except.ok (bordaRow docsE r)
        else Except.error (AErr.valueError "could not broadcast")) rankings with
    | error e => rw [h1] at hok; simp at hok
    | ok nd =>
      rw [h1] at hok
      dsimp only at hok
      cases h2 : collectE (rank_score docsE.length) nd with
      | error e => rw [h2] at hok; simp at hok
      | ok sc =>
        rw [h2] at hok
        simp only [pure, Except.pure, Except.ok.injEq] at hok
        exact ⟨_, buildList_length _ _, hok.symm⟩
  · rw [if_neg h0] at hok
    simp at hok
lemma argsort_length (data : List ℤ) : (argsort data).length = data.length := by
  simpa using (argsort_perm data).length_eq

lemma argsort_mem_lt (data : List ℤ) (j : ℕ) (hj : j ∈ argsort data) : j < data.length := by
  have := (argsort_perm data).mem_iff.mp hj
  exact List.mem_range.mp this

lemma argsort_nodup (data : List ℤ) : (argsort data).Nodup :=
  (argsort_perm data).nodup_iff.mpr (List.nodup_range _)

lemma bordaTail_length (docsE : List ℕ) (data : List ℤ) :
    (bordaTail docsE data).length = docsE.length := by
  simp [bordaTail, buildList_length]

lemma bordaTail_map_snd_perm (docsE : List ℕ) (data : List ℤ)
    (hlen : data.length = docsE.length) :
    List.Perm ((bordaTail docsE data).map Prod.snd) docsE := by
  have hidxlen : (((argsort data).map (fun i => i + 1)).reverse).length = docsE.length := by
    simp [argsort_length, hlen]
  have hmapsnd : (bordaTail docsE data).map Prod.snd
      = (((argsort data).map (fun i => i + 1)).reverse).map (fun j => docsE.getD (j - 1) 0) := by
    rw [bordaTail]
    have hb := buildList_eq_map (((argsort data).map (fun i => i + 1)).reverse)
      (fun j => docsE.getD (j - 1) 0) 0
    rw [hidxlen] at hb
    rw [← hb]
    simp [buildList, Function.comp]
  rw [hmapsnd]
  have hperm : List.Perm (((argsort data).map (fun i => i + 1)).reverse)
      ((List.range docsE.length).map (fun i => i + 1)) := by
    refine (List.reverse_perm _).trans ?_
    refine List.Perm.map _ ?_
    rw [← hlen]
    exact argsort_perm data
  refine (List.Perm.map _ hperm).trans ?_
  rw [List.map_map]
  have : ((fun j => docsE.getD (j - 1) 0) ∘ fun i => i + 1)
      = (fun i => docsE.getD i 0) := by
    funext i
    simp
  rw [this, map_getD_self]
lemma idx_getD (data : List ℤ) (k : ℕ) (hk : k < data.length) :
    (((argsort data).map (fun i => i + 1)).reverse).getD k 0
      = (argsort data).getD (data.length - 1 - k) 0 + 1 := by
  have hlen : (((argsort data).map (fun i => i + 1)).reverse).length = data.length := by
    simp [argsort_length]
  have hk' : k < (((argsort data).map (fun i => i + 1)).reverse).length := by omega
  rw [List.getD_eq_getElem _ _ hk', List.getElem_reverse, List.getElem_map,
    List.getD_eq_getElem]
  · simp [argsort_length]
  · simp [argsort_length]
    omega

/-- C4 amended: the Borda Count fused ranking descends by total score, and —
for universes of at most 16 documents, where numpy's `argsort` is its stable
insertion sort — whenever two consecutive documents have equal total score,
the one with the *larger* document index (assigned during universe
preprocessing) appears first: `(data.argsort() + 1)[::-1]` reverses the
stable ascending argsort, so equal scores come out in descending index order.
Above 16 documents numpy's unstable introsort makes the tie order
partition-dependent, so no fixed tie rule (the spec's ascending one
included) holds there. -/
theorem borda_tie_descending (docsE : List ℕ) (rankings : List (List ℕ))
    (out : List (ℚ × ℕ)) (hdnd : docsE.Nodup) (hsmall : docsE.length ≤ 16)
    (hok : borda_rank_by_id docsE rankings = .ok out)
    (k : ℕ) (hk : k + 1 < out.length) :
    (out.getD k (0, 0)).1 > (out.getD (k + 1) (0, 0)).1 ∨
    ((out.getD k (0, 0)).1 = (out.getD (k + 1) (0, 0)).1 ∧
      docsE.indexOf (out.getD (k + 1) (0, 0)).2 < docsE.indexOf (out.getD k (0, 0)).2) := by
  obtain ⟨data, hdlen, rfl⟩ := borda_ok_shape docsE rankings out hok
  rw [bordaTail_length] at hk
  set A := argsort data with hA
  have hAlen : A.length = data.length := argsort_length data
  set n := docsE.length with hn
  have hdn : data.length = n := hdlen
  have hq : n - 1 - k < A.length := by omega
  have hp : n - 1 - (k + 1) < A.length := by omega
  have hpq : n - 1 - (k + 1) < n - 1 - k := by omega
  have hrel : argsortRel data (A.get ⟨n - 1 - (k + 1), hp⟩) (A.get ⟨n - 1 - k, hq⟩) :=
    (List.pairwise_iff_get.mp (argsort_sorted data)) _ _ hpq
  have hne : A.get ⟨n - 1 - (k + 1), hp⟩ ≠ A.get ⟨n - 1 - k, hq⟩ := by
    intro he
    have h2 := (List.Nodup.get_inj_iff (argsort_nodup data)).mp he
    simp at h2
    omega
  have hgetk : (bordaTail docsE data).getD k (0, 0)
      = (((data.getD (A.getD (n - 1 - k) 0) 0 : ℤ) : ℚ),
          docsE.getD (A.getD (n - 1 - k) 0) 0) := by
    rw [bordaTail]
    rw [buildList_getD _ _ _ _ (by omega)]
    rw [idx_getD data k (by omega)]
    simp [hA, hdn]
  have hgetk1 : (bordaTail docsE data).getD (k + 1) (0, 0)
      = (((data.getD (A.getD (n - 1 - (k + 1)) 0) 0 : ℤ) : ℚ),
          docsE.getD (A.getD (n - 1 - (k + 1)) 0) 0) := by
    rw [bordaTail]
    rw [buildList_getD _ _ _ _ (by omega)]
    rw [idx_getD data (k + 1) (by omega)]
    simp [hA, hdn]
  have hgd_q : A.getD (n - 1 - k) 0 = A.get ⟨n - 1 - k, hq⟩ := by
    rw [List.getD_eq_getElem _ _ hq]
    rfl
  have hgd_p : A.getD (n - 1 - (k + 1)) 0 = A.get ⟨n - 1 - (k + 1), hp⟩ := by
    rw [List.getD_eq_getElem _ _ hp]
    rfl
  set a : ℕ := A.get ⟨n - 1 - (k + 1), hp⟩ with ha
  set b : ℕ := A.get ⟨n - 1 - k, hq⟩ with hb
  have hbltn : b < n := by
    have hm : b ∈ A := by
      rw [hb]
      exact A.get_mem _ _
    have := argsort_mem_lt data b hm
    omega
  have haltn : a < n := by
    have hm : a ∈ A := by
      rw [ha]
      exact A.get_mem _ _
    have := argsort_mem_lt data a hm
    omega
  have hidxa : docsE.indexOf (docsE.getD a 0) = a := by
    rw [List.getD_eq_getElem _ _ (by omega)]
    exact List.indexOf_getElem hdnd a (by omega)
  have hidxb : docsE.indexOf (docsE.getD b 0) = b := by
    rw [List.getD_eq_getElem _ _ (by omega)]
    exact List.indexOf_getElem hdnd b (by omega)
  rw [hgetk, hgetk1, hgd_q, hgd_p]
  rcases hrel with h | ⟨heq, hle⟩
  · left
    dsimp only
    exact_mod_cast h
  · right
    constructor
    · dsimp only
      exact_mod_cast heq.symm
    · dsimp only
      rw [hidxa, hidxb]
      omega
/-- C4 counterexample: two documents with equal total Borda score.  The code
returns the document with index 2 (`20`) before the document with index 1
(`10`), violating the claim's ascending tie-break (`descTieAsc`). -/
theorem borda_tie_counterexample :
    borda_rank_by_id [10, 20] [[10, 20], [20, 10]] = Except.ok [(1, 20), (1, 10)] ∧
    descTieAsc [10, 20] [(1, 20), (1, 10)] = false := by
  exact ⟨by decide, by decide⟩

/-- Witness for `borda_tie_descending` on the tied two-document instance. -/
theorem borda_tie_descending_witness :
    (([((1 : ℚ), 20), (1, 10)].getD 0 (0, 0)).1 > ([((1 : ℚ), 20), (1, 10)].getD 1 (0, 0)).1 ∨
    (([((1 : ℚ), 20), (1, 10)].getD 0 (0, 0)).1 = ([((1 : ℚ), 20), (1, 10)].getD 1 (0, 0)).1 ∧
      List.indexOf ([((1 : ℚ), 20), (1, 10)].getD 1 (0, 0)).2 [10, 20]
        < List.indexOf ([((1 : ℚ), 20), (1, 10)].getD 0 (0, 0)).2 [10, 20])) :=
  borda_tie_descending [10, 20] [[10, 20], [20, 10]] [((1 : ℚ), 20), (1, 10)]
    (by decide) (by decide) (by decide) 0 (by decide)

lemma borda_universe (docsE : List ℕ) (rankings : List (List ℕ))
    (hne : rankings ≠ []) (hdnd : docsE.Nodup)
    (hnd : ∀ r ∈ rankings, r.Nodup) (hsub : ∀ r ∈ rankings, ∀ d ∈ r, d ∈ docsE) :
    ∃ out, borda_rank_by_id docsE rankings = .ok out ∧
      out.length = docsE.length ∧ List.Perm (out.map Prod.snd) docsE := by
  refine ⟨_, borda_run docsE rankings hne hdnd hnd hsub, bordaTail_length _ _,
    bordaTail_map_snd_perm _ _ (buildList_length _ _)⟩

lemma map_indexOf_self (l : List ℕ) (hnd : l.Nodup) :
    l.map (fun d => l.indexOf d) = List.range l.length := by
  apply List.ext_getElem
  · simp
  · intro i h1 h2
    simp only [List.getElem_map, List.getElem_range]
    exact List.indexOf_getElem hnd i (by simpa using h1)

lemma scoreFold_getD (n : ℕ) (row : List ℤ) (hlen : row.length = n) (hnd : row.Nodup)
    (hmem : ∀ x ∈ row, 1 ≤ x ∧ x ≤ (n : ℤ)) (i : ℕ) (hi : i < n) :
    ((List.range n).foldl
      (fun (a : List ℤ) (j : ℕ) => a.set (row.getD j 0 - 1).toNat ((n : ℤ) - ((j : ℤ) + 1)))
      (List.replicate n 0)).getD (row.getD i 0 - 1).toNat 0 = (n : ℤ) - ((i : ℤ) + 1) := by
  have hmem' : ∀ j, j < n → 1 ≤ row.getD j 0 ∧ row.getD j 0 ≤ (n : ℤ) := by
    intro j hj
    have hjl : j < row.length := by omega
    rw [List.getD_eq_getElem _ _ hjl]
    exact hmem _ (List.getElem_mem hjl)
  rw [foldl_set_as_pairs (fun j => (row.getD j 0 - 1).toNat)
    (fun j => (n : ℤ) - ((j : ℤ) + 1))]
  have hfst : ((List.range n).map
      (fun j => ((row.getD j 0 - 1).toNat, (n : ℤ) - ((j : ℤ) + 1)))).map Prod.fst
      = row.map (fun x => (x - 1).toNat) := by
    rw [List.map_map]
    have := range_map_getD_fn row (fun x => (x - 1).toNat)
    rw [hlen] at this
    exact this
  apply foldl_set_eval
  · rw [hfst]
    refine List.Nodup.map_on ?_ hnd
    intro x hx y hy he
    have hx' := hmem x hx
    have hy' := hmem y hy
    omega
  · exact List.mem_map.mpr ⟨i, List.mem_range.mpr hi, rfl⟩
  · have hb := hmem' i hi
    simp only [List.length_replicate]
    omega
lemma borda_single (docsE r : List ℕ) (hnd : r.Nodup)
    (hperm : List.Perm docsE r) :
    (borda_rank_by_id docsE [r]).map (fun out => out.map Prod.snd) = Except.ok r := by
  classical
  have hdnd : docsE.Nodup := hperm.nodup_iff.mpr hnd
  have hn : docsE.length = r.length := hperm.length_eq
  set n := docsE.length with hndef
  have hnr : ∀ r' ∈ [r], r'.Nodup := by
    intro r' hr'
    simp only [List.mem_singleton] at hr'
    exact hr' ▸ hnd
  have hsub : ∀ r' ∈ [r], ∀ d ∈ r', d ∈ docsE := by
    intro r' hr' d hd
    simp only [List.mem_singleton] at hr'
    exact hperm.mem_iff.mpr (hr' ▸ hd)
  -- the single row is exactly the mapped ranking: the padding is empty
  have hids_perm : List.Perm (r.map (fun d => (docsE.indexOf d : ℤ) + 1))
      ((List.range' 1 n).map (fun x : ℕ => (x : ℤ))) := by
    refine (List.Perm.map _ hperm.symm).symm.symm.trans ?_
    have h1 : docsE.map (fun d => (docsE.indexOf d : ℤ) + 1)
        = (docsE.map (fun d => docsE.indexOf d)).map (fun i : ℕ => (i : ℤ) + 1) := by
      rw [List.map_map]
      rfl
    rw [h1, map_indexOf_self docsE hdnd]
    have h2 : (List.range' 1 n).map (fun x : ℕ => (x : ℤ))
        = (List.range n).map (fun i : ℕ => (i : ℤ) + 1) := by
      rw [List.range'_eq_map_range, List.map_map]
      refine List.map_congr_left ?_
      intro a _
      simp only [Function.comp]
      push_cast
      ring
    rw [h2]
  have hrow_eq : bordaRow docsE r = r.map (fun d => (docsE.indexOf d : ℤ) + 1) := by
    rw [bordaRow]
    have hfilter : ((List.range' 1 n).filter
        (fun x : ℕ => ¬ (x : ℤ) ∈ r.map (fun d => (docsE.indexOf d : ℤ) + 1))) = [] := by
      rw [List.filter_eq_nil_iff]
      intro x hx
      have hm : ((x : ℤ)) ∈ r.map (fun d => (docsE.indexOf d : ℤ) + 1) :=
        hids_perm.mem_iff.mpr (List.mem_map.mpr ⟨x, hx, rfl⟩)
      simp [hm]
    rw [hfilter]
    simp
  set row : List ℤ := r.map (fun d => (docsE.indexOf d : ℤ) + 1) with hrowdef
  have hrowlen : row.length = n := by simp [hrowdef, hn]
  have hrownd : row.Nodup := hids_perm.nodup_iff.mpr
    (List.Nodup.map (fun a b hab => by omega)
      (by simp [List.nodup_range']))
  have hrowmem : ∀ x ∈ row, 1 ≤ x ∧ x ≤ (n : ℤ) := by
    intro x hx
    have := hids_perm.mem_iff.mp hx
    obtain ⟨y, hy, rfl⟩ := List.mem_map.mp this
    have := List.mem_range'_1.mp hy
    omega
  have hrowget : ∀ i, i < n → row.getD i 0 = (docsE.indexOf (r.getD i 0) : ℤ) + 1 := by
    intro i hi
    have hir : i < r.length := by omega
    rw [hrowdef, List.getD_eq_getElem _ _ (by simpa using hir), List.getElem_map,
      List.getD_eq_getElem _ _ hir]
  -- run the pipeline
  have hrun := borda_run docsE [r] (by simp) hdnd hnr hsub
  set S : List ℤ := (List.range n).foldl
    (fun (a : List ℤ) (i : ℕ) => a.set ((bordaRow docsE r).getD i 0 - 1).toNat
      ((n : ℤ) - ((i : ℤ) + 1))) (List.replicate n 0) with hSdef
  set data : List ℤ := buildList n (fun d =>
    (([r].map (fun rr => (List.range n).foldl
      (fun (a : List ℤ) (i : ℕ) => a.set ((bordaRow docsE rr).getD i 0 - 1).toNat
        ((n : ℤ) - ((i : ℤ) + 1))) (List.replicate n 0))).map
      (fun rw2 => rw2.getD d 0)).sum) with hdatadef
  have hdata_getD : ∀ d, d < n → data.getD d 0 = S.getD d 0 := by
    intro d hd
    rw [hdatadef, buildList_getD _ _ _ _ hd]
    simp [hSdef]
  have hdatalen : data.length = n := buildList_length _ _
  have hSgetD : ∀ i, i < n → S.getD (docsE.indexOf (r.getD i 0)) 0
      = (n : ℤ) - ((i : ℤ) + 1) := by
    intro i hi
    have h1 := scoreFold_getD n row hrowlen hrownd hrowmem i hi
    rw [← hrow_eq] at h1
    have h2 : ((bordaRow docsE r).getD i 0 - 1).toNat = docsE.indexOf (r.getD i 0) := by
      rw [hrow_eq, hrowget i hi]
      omega
    rw [hSdef, ← h2]
    exact h1
  have hidxlt : ∀ i, i < n → docsE.indexOf (r.getD i 0) < n := by
    intro i hi
    have hir : i < r.length := by omega
    have hmem : r.getD i 0 ∈ docsE := by
      rw [List.getD_eq_getElem _ _ hir]
      exact hperm.mem_iff.mpr (List.getElem_mem hir)
    exact List.indexOf_lt_length.mpr hmem
  have hdataS : ∀ i, i < n → data.getD (docsE.indexOf (r.getD i 0)) 0
      = (n : ℤ) - ((i : ℤ) + 1) := by
    intro i hi
    rw [hdata_getD _ (hidxlt i hi)]
    exact hSgetD i hi
  -- the argsort is the reversed rank-position list
  set C : List ℕ := (r.map (fun d => docsE.indexOf d)).reverse with hCdef
  have hClen : C.length = n := by simp [hCdef, hn]
  have hCget0 : ∀ p, p < n →
      ((r.map (fun d => docsE.indexOf d)).reverse).getD p 0
        = docsE.indexOf (r.getD (n - 1 - p) 0) := by
    intro p hp
    have hp' : p < ((r.map (fun d => docsE.indexOf d)).reverse).length := by
      simp
      omega
    rw [List.getD_eq_getElem _ _ hp', List.getElem_reverse, List.getElem_map]
    congr 1
    rw [List.getD_eq_getElem _ _ (by omega)]
    congr 1
    simp [hn]
  have hCget : ∀ p, p < n → C.getD p 0 = docsE.indexOf (r.getD (n - 1 - p) 0) := by
    intro p hp
    rw [hCdef]
    exact hCget0 p hp
  have hdataC : ∀ p, p < n → data.getD (C.getD p 0) 0 = (p : ℤ) := by
    intro p hp
    rw [hCget p hp, hdataS (n - 1 - p) (by omega)]
    have : (((n - 1 - p : ℕ)) : ℤ) = (n : ℤ) - 1 - (p : ℤ) := by omega
    rw [this]
    ring
  have hargsort : argsort data = C := by
    refine argsort_eq_of data C ?_ ?_
    · rw [hdatalen]
      refine (List.reverse_perm _).trans ?_
      refine (List.Perm.map _ hperm.symm).symm.symm.trans ?_
      rw [map_indexOf_self docsE hdnd]
    · rw [List.Sorted, List.pairwise_iff_get]
      intro p q hpq
      have hpn : (p : ℕ) < n := by
        have := p.isLt
        omega
      have hqn : (q : ℕ) < n := by
        have := q.isLt
        omega
      have hgp : C.get p = C.getD (p : ℕ) 0 := by
        rw [List.getD_eq_getElem _ _ (by omega)]
        rfl
      have hgq : C.get q = C.getD (q : ℕ) 0 := by
        rw [List.getD_eq_getElem _ _ (by omega)]
        rfl
      left
      rw [hgp, hgq, hdataC _ hpn, hdataC _ hqn]
      exact_mod_cast hpq
  -- finish: the fused ids are exactly r
  rw [hrun]
  simp only [Except.map, Except.ok.injEq]
  have hmapsnd : (bordaTail docsE data).map Prod.snd
      = (((argsort data).map (fun i => i + 1)).reverse).map (fun j => docsE.getD (j - 1) 0) := by
    rw [bordaTail]
    have hidxlen2 : (((argsort data).map (fun i => i + 1)).reverse).length = n := by
      simp [argsort_length, hdatalen]
    have hb := buildList_eq_map (((argsort data).map (fun i => i + 1)).reverse)
      (fun j => docsE.getD (j - 1) 0) 0
    rw [hidxlen2] at hb
    rw [← hb]
    simp [buildList, Function.comp]
  rw [hmapsnd, hargsort, hCdef]
  simp only [List.map_reverse, List.reverse_reverse, List.map_map]
  refine (List.map_congr_left ?_).trans (List.map_id r)
  intro d hd
  simp only [Function.comp]
  have hmem : d ∈ docsE := hperm.mem_iff.mpr hd
  have hlt : docsE.indexOf d < docsE.length := List.indexOf_lt_length.mpr hmem
  rw [Nat.add_sub_cancel, List.getD_eq_getElem _ _ hlt]
  exact List.getElem_indexOf hlt

end Atri
namespace Atri
lemma map_fst_zip_of_le {α β : Type} : ∀ (B : List β) (A : List α),
    B.length ≤ A.length → (A.zip B).map Prod.fst = A.take B.length := by
  intro B
  induction B with
  | nil => intro A _; simp
  | cons b bt ih =>
    intro A h
    cases A with
    | nil => simp at h
    | cons a at' =>
      simp only [List.zip_cons_cons, List.map_cons, List.length_cons, List.take_succ_cons]
      rw [ih at' (by simpa using h)]

lemma zip_range_fst (n : ℕ) (l : List ℕ) (h : l.length = n) :
    ((List.range (n + 1)).zip l).map Prod.fst = List.range n := by
  rw [map_fst_zip_of_le l (List.range (n + 1)) (by simp [h]), h, List.take_range]
  simp [Nat.min_def]

lemma zip_length_of_le {α β : Type} (A : List α) (B : List β) (h : B.length ≤ A.length) :
    (A.zip B).length = B.length := by
  simp [List.length_zip]
  omega
end Atri
namespace Atri
lemma getD_map_of_lt {α β : Type} (f : α → β) (l : List α) (i : ℕ) (d : β) (d' : α)
    (h : i < l.length) : (l.map f).getD i d = f (l.getD i d') := by
  rw [List.getD_eq_getElem _ _ (by simpa using h), List.getElem_map,
    List.getD_eq_getElem _ _ h]

lemma matVecDot_length (s : List ℚ) (T : List (List ℚ)) :
    (matVecDot s T).length = (T.getD 0 []).length := buildList_length _ _

lemma stationary_loop_length (T : List (List ℚ)) (prec : ℚ) (L : ℕ)
    (hT : (T.getD 0 []).length = L) :
    ∀ (fuel : ℕ) (s : List ℚ), s.length = L → (stationary_loop T prec fuel s).length = L := by
  intro fuel
  induction fuel with
  | zero => intro s hs; exact hs
  | succ f ih =>
    intro s hs
    rw [stationary_loop]
    split
    · exact hs
    · exact ih _ (by rw [matVecDot_length, hT])

lemma aggRanks_length (m : List ℚ) : (get_aggregated_ranks m).length = m.length := by
  simp [get_aggregated_ranks]

lemma mc4_structure (df : List (List ℤ)) (items : ℕ) (hitems : df.length = items)
    (h0 : items ≠ 0) :
    ∃ fr : List ℕ, fr.length = items ∧
      mc4_aggregator df = .ok ((List.range (items + 1)).zip fr) := by
  have hinit : get_initial_distribution_matrix items
      = .ok (List.replicate items (1 / (items : ℚ))) := by
    rw [get_initial_distribution_matrix, if_neg h0]
  have hshape : (get_matrix_shape df).1 = items := by
    simp [get_matrix_shape, hitems]
  set etm := get_ergodic_transition_matrix
    (get_normalized_transition_matrix
      (get_partial_transition_matrix df "mc4" (get_matrix_shape df).1 (get_matrix_shape df).2)
      (get_matrix_shape df).1)
    (get_matrix_shape df).1 (3 / 20) with hetm
  have hetm0 : (etm.getD 0 []).length = items := by
    rw [hetm, get_ergodic_transition_matrix]
    have hntm_len : (get_normalized_transition_matrix
        (get_partial_transition_matrix df "mc4" (get_matrix_shape df).1 (get_matrix_shape df).2)
        (get_matrix_shape df).1).length = items := by
      rw [get_normalized_transition_matrix]
      simp only [buildList_length, hshape]
    rw [getD_map_of_lt _ _ _ _ [] (by rw [hntm_len]; omega)]
    simp only [List.length_map]
    rw [get_normalized_transition_matrix]
    simp only [hshape]
    rw [buildList_getD _ _ _ _ (by omega)]
    rw [buildList_length]
  refine ⟨get_aggregated_ranks (get_stationary_distribution_matrix
    (List.replicate items (1 / (items : ℚ))) etm (1 / 10000000) 200), ?_, ?_⟩
  · rw [aggRanks_length, get_stationary_distribution_matrix,
      stationary_loop_length etm _ items hetm0 200 _ (by simp)]
  · rw [mc4_aggregator]
    simp only [bind, Except.bind, hshape, hinit, hetm, pure, Except.pure]
    rw [get_mapped_final_ranks]
end Atri
namespace Atri
lemma map_indexOf_univ (docsE : List ℕ) (hdnd : docsE.Nodup) :
    docsE.map (fun d => (docsE.indexOf d : ℤ) + 1)
      = (List.range' 1 docsE.length).map (fun x : ℕ => (x : ℤ)) := by
  have h1 : docsE.map (fun d => (docsE.indexOf d : ℤ) + 1)
      = (docsE.map (fun d => docsE.indexOf d)).map (fun i : ℕ => (i : ℤ) + 1) := by
    rw [List.map_map]
    rfl
  rw [h1, map_indexOf_self docsE hdnd, List.range'_eq_map_range, List.map_map]
  refine List.map_congr_left ?_
  intro a _
  simp only [Function.comp]
  push_cast
  ring

lemma append_filter_perm (docsE r : List ℕ) (hdnd : docsE.Nodup) (hnd : r.Nodup)
    (hsub : ∀ d ∈ r, d ∈ docsE) :
    List.Perm (r ++ docsE.filter (fun d => ¬ d ∈ r)) docsE := by
  classical
  have hfnd : (docsE.filter (fun d => ¬ d ∈ r)).Nodup := List.Nodup.filter _ hdnd
  have happ : (r ++ docsE.filter (fun d => ¬ d ∈ r)).Nodup := by
    refine List.Nodup.append hnd hfnd ?_
    intro a ha hb
    have := (List.mem_filter.mp hb).2
    simp only [decide_not, Bool.not_eq_true', decide_eq_false_iff_not] at this
    exact this ha
  rw [List.perm_ext_iff_of_nodup happ hdnd]
  intro a
  constructor
  · intro h
    rcases List.mem_append.mp h with h | h
    · exact hsub a h
    · exact (List.mem_filter.mp h).1
  · intro h
    by_cases har : a ∈ r
    · exact List.mem_append.mpr (Or.inl har)
    · refine List.mem_append.mpr (Or.inr (List.mem_filter.mpr ⟨h, by simpa using har⟩))

lemma zip_map_self {α β : Type} (A : List α) (g : α → β) :
    A.zip (A.map g) = A.map (fun a => (a, g a)) := by
  induction A with
  | nil => rfl
  | cons x t ih => simp [List.zip_cons_cons, ih]

lemma set2d_length (g : List (List ℤ)) (i j : ℕ) (v : ℤ) :
    (set2d g i j v).length = g.length := by
  simp [set2d]

lemma buildNdpos_length (ndoc nrank : ℕ) (ndranks : List (List ℤ)) :
    (buildNdpos ndoc nrank ndranks).length = ndoc := by
  rw [buildNdpos]
  have houter : ∀ (l : List (ℕ × List ℤ)) (g : List (List ℤ)),
      (l.foldl (fun g irow => irow.2.enum.foldl
        (fun g2 pd => set2d g2 (pd.2 - 1).toNat irow.1 ((pd.1 : ℤ) + 1)) g) g).length
        = g.length := by
    intro l
    induction l with
    | nil => intro g; rfl
    | cons x t ih =>
      intro g
      rw [List.foldl_cons, ih]
      have hinner : ∀ (il : List (ℕ × ℤ)) (g2 : List (List ℤ)),
          (il.foldl (fun g2 pd => set2d g2 (pd.2 - 1).toNat x.1 ((pd.1 : ℤ) + 1)) g2).length
            = g2.length := by
        intro il
        induction il with
        | nil => intro g2; rfl
        | cons y t2 ih2 => intro g2; rw [List.foldl_cons, ih2, set2d_length]
      exact hinner _ _
  rw [houter]
  simp
end Atri
namespace Atri
lemma markov_universe (docsE : List ℕ) (rankings : List (List ℕ))
    (hne : rankings ≠ []) (hdnd : docsE.Nodup)
    (hnd : ∀ r ∈ rankings, r.Nodup) (hsub : ∀ r ∈ rankings, ∀ d ∈ r, d ∈ docsE)
    (hd0 : docsE ≠ []) :
    ∃ out, markov_rank_by_id docsE rankings = .ok out ∧
      out.length = docsE.length ∧ List.Perm (out.map Prod.snd) docsE := by
  classical
  set n := docsE.length with hn
  have hn0 : n ≠ 0 := by
    simpa [hn, List.length_eq_zero] using hd0
  have hlen0 : rankings.length > 0 := List.length_pos.mpr hne
  -- the zipped (ranking, padding) pairs
  have hzip : rankings.zip (rankings.map (fun r => docsE.filter (fun d => ¬ d ∈ r)))
      = rankings.map (fun r => (r, docsE.filter (fun d => ¬ d ∈ r))) := zip_map_self _ _
  have hrowlen : ∀ r ∈ rankings,
      ((r.map (fun d => (docsE.indexOf d : ℤ) + 1)
        ++ (docsE.filter (fun d => ¬ d ∈ r)).map (fun d => (docsE.indexOf d : ℤ) + 1))).length
        = n := by
    intro r hr
    have hperm2 := append_filter_perm docsE r hdnd (hnd r hr) (hsub r hr)
    have := hperm2.length_eq
    simp only [List.length_append, List.length_map] at this ⊢
    simpa using this
  have h1 : collectE (fun (p : List ℕ × List ℕ) =>
      let row : List ℤ := p.1.map (fun d => (docsE.indexOf d : ℤ) + 1)
        ++ p.2.map (fun d => (docsE.indexOf d : ℤ) + 1)
      if row.length = n then Except.ok row
      else Except.error (AErr.valueError "could not broadcast"))
      (rankings.zip (rankings.map (fun r => docsE.filter (fun d => ¬ d ∈ r))))
      = .ok ((rankings.map (fun r => (r, docsE.filter (fun d => ¬ d ∈ r)))).map
          (fun p => p.1.map (fun d => (docsE.indexOf d : ℤ) + 1)
            ++ p.2.map (fun d => (docsE.indexOf d : ℤ) + 1))) := by
    rw [hzip]
    refine collectE_map_of_ok _ _ _ (fun p hp => ?_)
    obtain ⟨r, hr, rfl⟩ := List.mem_map.mp hp
    simp only []
    rw [if_pos (hrowlen r hr)]
  set ndranks := (rankings.map (fun r => (r, docsE.filter (fun d => ¬ d ∈ r)))).map
    (fun p => p.1.map (fun d => (docsE.indexOf d : ℤ) + 1)
      ++ p.2.map (fun d => (docsE.indexOf d : ℤ) + 1)) with hndranks
  have hndposlen : (buildNdpos n rankings.length ndranks).length = n :=
    buildNdpos_length _ _ _
  obtain ⟨fr, hfrlen, hmc4⟩ := mc4_structure (buildNdpos n rankings.length ndranks) n
    hndposlen hn0
  refine ⟨List.insertionSort (fun a b => b.1 ≤ a.1)
      (((List.range (n + 1)).zip fr).map
        (fun p => ((((buildNdpos n rankings.length ndranks).length : ℚ) - (p.2 : ℚ)),
          docsE.getD p.1 0))), ?_, ?_, ?_⟩
  · rw [markov_rank_by_id, if_pos hlen0]
    simp only [bind, Except.bind, ← hn, h1, ← hndranks, hmc4, pure, Except.pure]
  · rw [List.length_insertionSort, List.length_map, zip_length_of_le _ _ (by simp [hfrlen])]
    exact hfrlen
  · have hperm1 : List.Perm
        (List.insertionSort (fun a b => b.1 ≤ a.1)
          (((List.range (n + 1)).zip fr).map
            (fun p => ((((buildNdpos n rankings.length ndranks).length : ℚ) - (p.2 : ℚ)),
              docsE.getD p.1 0))))
        (((List.range (n + 1)).zip fr).map
          (fun p => ((((buildNdpos n rankings.length ndranks).length : ℚ) - (p.2 : ℚ)),
            docsE.getD p.1 0))) := List.perm_insertionSort _ _
    refine (List.Perm.map Prod.snd hperm1).trans ?_
    rw [List.map_map]
    have hcomp : (Prod.snd ∘ (fun (p : ℕ × ℕ) =>
        ((((buildNdpos n rankings.length ndranks).length : ℚ) - (p.2 : ℚ)), docsE.getD p.1 0)))
        = (fun p : ℕ × ℕ => docsE.getD p.1 0) := rfl
    rw [hcomp]
    have h2 : ((List.range (n + 1)).zip fr).map (fun p : ℕ × ℕ => docsE.getD p.1 0)
        = (((List.range (n + 1)).zip fr).map Prod.fst).map (fun j => docsE.getD j 0) := by
      rw [List.map_map]
      rfl
    rw [h2, zip_range_fst n fr hfrlen, hn, map_getD_self]
end Atri
namespace Atri
/-- C10 counterexample: `[[]]` is a non-empty list of duplicate-free rankings,
its universe (the union of the rankings' document ids) is empty, and
`MarkovChain.rank_by_id` raises `ZeroDivisionError` (from `1 / items` with
`items = 0`) instead of returning the empty fused ranking that the claim
promises; `BordaCount.rank_by_id` does return it. -/
theorem aggregators_universe_counterexample :
    ([[]] : List (List ℕ)) ≠ [] ∧ (∀ r ∈ ([[]] : List (List ℕ)), r.Nodup) ∧
      borda_rank_by_id [] [[]] = Except.ok [] ∧
      markov_rank_by_id [] [[]] = Except.error AErr.divisionByZero := by
  refine ⟨by decide, by decide, by rfl, by rfl⟩

/-- C10 (amended): for every non-empty list of duplicate-free rankings over
the duplicate-free universe enumeration `docsE` (the union of the rankings'
document ids, in Python-set iteration order), Borda Count returns exactly one
`(score, id)` pair per universe document — the output length equals the
universe size and the output ids are a permutation of the universe — and the
Markov-chain aggregator does the same provided the universe is non-empty
(on the empty universe it raises `ZeroDivisionError`). -/
theorem aggregators_universe (docsE : List ℕ) (rankings : List (List ℕ))
    (hne : rankings ≠ []) (hdnd : docsE.Nodup)
    (hnd : ∀ r ∈ rankings, r.Nodup)
    (hsub : ∀ r ∈ rankings, ∀ d ∈ r, d ∈ docsE)
    (hcover : ∀ d ∈ docsE, ∃ r ∈ rankings, d ∈ r) :
    (∃ out, borda_rank_by_id docsE rankings = .ok out ∧
        out.length = docsE.length ∧ List.Perm (out.map Prod.snd) docsE) ∧
    (docsE ≠ [] →
      ∃ out, markov_rank_by_id docsE rankings = .ok out ∧
        out.length = docsE.length ∧ List.Perm (out.map Prod.snd) docsE) :=
  ⟨borda_universe docsE rankings hne hdnd hnd hsub,
   fun hd0 => markov_universe docsE rankings hne hdnd hnd hsub hd0⟩

/-- Witness for `aggregators_universe` on a two-document, two-ranking batch. -/
theorem aggregators_universe_witness :
    (∃ out, borda_rank_by_id [1, 2] [[1, 2], [2]] = .ok out ∧
        out.length = ([1, 2] : List ℕ).length ∧ List.Perm (out.map Prod.snd) [1, 2]) ∧
    (([1, 2] : List ℕ) ≠ [] →
      ∃ out, markov_rank_by_id [1, 2] [[1, 2], [2]] = .ok out ∧
        out.length = ([1, 2] : List ℕ).length ∧ List.Perm (out.map Prod.snd) [1, 2]) :=
  aggregators_universe [1, 2] [[1, 2], [2]] (by decide) (by decide) (by decide)
    (by decide) (by decide)
end Atri
namespace Atri
lemma singleRow_length (docsE r : List ℕ) : (singleRow docsE r).length = r.length := by
  simp [singleRow]

lemma singleRow_perm (docsE r : List ℕ) (hnd : r.Nodup) (hperm : List.Perm docsE r) :
    List.Perm (singleRow docsE r)
      ((List.range' 1 docsE.length).map (fun x : ℕ => (x : ℤ))) := by
  have hdnd : docsE.Nodup := hperm.nodup_iff.mpr hnd
  refine (List.Perm.map (fun d => (docsE.indexOf d : ℤ) + 1) hperm.symm).trans ?_
  have h1 : docsE.map (fun d => (docsE.indexOf d : ℤ) + 1)
      = (docsE.map (fun d => docsE.indexOf d)).map (fun i : ℕ => (i : ℤ) + 1) := by
    rw [List.map_map]
    rfl
  rw [h1, map_indexOf_self docsE hdnd]
  have h2 : (List.range' 1 docsE.length).map (fun x : ℕ => (x : ℤ))
      = (List.range docsE.length).map (fun i : ℕ => (i : ℤ) + 1) := by
    rw [List.range'_eq_map_range, List.map_map]
    refine List.map_congr_left ?_
    intro a _
    simp only [Function.comp]
    push_cast
    ring
  rw [h2]

lemma singleRow_nodup (docsE r : List ℕ) (hnd : r.Nodup) (hperm : List.Perm docsE r) :
    (singleRow docsE r).Nodup :=
  (singleRow_perm docsE r hnd hperm).nodup_iff.mpr
    (List.Nodup.map (fun a b hab => by omega) (by simp [List.nodup_range']))

lemma singleRow_mem (docsE r : List ℕ) (hnd : r.Nodup) (hperm : List.Perm docsE r) :
    ∀ x ∈ singleRow docsE r, 1 ≤ x ∧ x ≤ (docsE.length : ℤ) := by
  intro x hx
  have := (singleRow_perm docsE r hnd hperm).mem_iff.mp hx
  obtain ⟨y, hy, rfl⟩ := List.mem_map.mp this
  have := List.mem_range'_1.mp hy
  omega

lemma qpos_lt (docsE r : List ℕ) (hnd : r.Nodup) (hperm : List.Perm docsE r)
    (d : ℕ) (hd : d < docsE.length) : qpos docsE r d < docsE.length := by
  have hm : ((d : ℤ) + 1) ∈ singleRow docsE r := by
    refine (singleRow_perm docsE r hnd hperm).mem_iff.mpr ?_
    exact List.mem_map.mpr ⟨d + 1, List.mem_range'_1.mpr ⟨by omega, by omega⟩, by push_cast; ring⟩
  have := List.indexOf_lt_length.mpr hm
  rw [singleRow_length, ← hperm.length_eq] at this
  exact this

lemma singleRow_getD_qpos (docsE r : List ℕ) (hnd : r.Nodup) (hperm : List.Perm docsE r)
    (d : ℕ) (hd : d < docsE.length) :
    (singleRow docsE r).getD (qpos docsE r d) 0 = (d : ℤ) + 1 := by
  have hm : ((d : ℤ) + 1) ∈ singleRow docsE r := by
    refine (singleRow_perm docsE r hnd hperm).mem_iff.mpr ?_
    exact List.mem_map.mpr ⟨d + 1, List.mem_range'_1.mpr ⟨by omega, by omega⟩, by push_cast; ring⟩
  have hlt : (singleRow docsE r).indexOf ((d : ℤ) + 1) < (singleRow docsE r).length :=
    List.indexOf_lt_length.mpr hm
  rw [qpos, List.getD_eq_getElem _ _ hlt]
  exact List.getElem_indexOf hlt

lemma qpos_inj (docsE r : List ℕ) (hnd : r.Nodup) (hperm : List.Perm docsE r)
    (d d' : ℕ) (hd : d < docsE.length) (hd' : d' < docsE.length)
    (h : qpos docsE r d = qpos docsE r d') : d = d' := by
  have h1 := singleRow_getD_qpos docsE r hnd hperm d hd
  have h2 := singleRow_getD_qpos docsE r hnd hperm d' hd'
  rw [h] at h1
  rw [h1] at h2
  omega

lemma qpos_surj (docsE r : List ℕ) (hnd : r.Nodup) (hperm : List.Perm docsE r)
    (p : ℕ) (hp : p < docsE.length) : ∃ d < docsE.length, qpos docsE r d = p := by
  have hrow : (singleRow docsE r).length = docsE.length := by
    rw [singleRow_length, ← hperm.length_eq]
  have hplen : p < (singleRow docsE r).length := by omega
  have hx : (singleRow docsE r).getD p 0 ∈ singleRow docsE r := by
    rw [List.getD_eq_getElem _ _ hplen]
    exact List.getElem_mem hplen
  have hb := singleRow_mem docsE r hnd hperm _ hx
  refine ⟨((singleRow docsE r).getD p 0 - 1).toNat, by omega, ?_⟩
  have hcast : ((((singleRow docsE r).getD p 0 - 1).toNat : ℤ)) + 1
      = (singleRow docsE r).getD p 0 := by omega
  rw [qpos, hcast, List.getD_eq_getElem _ _ hplen]
  exact List.indexOf_getElem (singleRow_nodup docsE r hnd hperm) p hplen

lemma qpos_image (docsE r : List ℕ) (hnd : r.Nodup) (hperm : List.Perm docsE r) :
    (Finset.range docsE.length).image (qpos docsE r) = Finset.range docsE.length := by
  ext v
  simp only [Finset.mem_image, Finset.mem_range]
  constructor
  · rintro ⟨d, hd, rfl⟩
    exact qpos_lt docsE r hnd hperm d hd
  · intro hv
    obtain ⟨d, hd, hq⟩ := qpos_surj docsE r hnd hperm v hv
    exact ⟨d, hd, hq⟩

lemma qpos_sum_reindex (docsE r : List ℕ) (hnd : r.Nodup) (hperm : List.Perm docsE r)
    (g : ℕ → ℚ) :
    ∑ j in Finset.range docsE.length, g (qpos docsE r j)
      = ∑ v in Finset.range docsE.length, g v := by
  have hinj : ∀ x ∈ Finset.range docsE.length, ∀ y ∈ Finset.range docsE.length,
      qpos docsE r x = qpos docsE r y → x = y := fun x hx y hy hxy =>
    qpos_inj docsE r hnd hperm x y (Finset.mem_range.mp hx) (Finset.mem_range.mp hy) hxy
  calc ∑ j in Finset.range docsE.length, g (qpos docsE r j)
      = ∑ v in (Finset.range docsE.length).image (qpos docsE r), g v :=
        (Finset.sum_image hinj).symm
    _ = ∑ v in Finset.range docsE.length, g v := by
        rw [qpos_image docsE r hnd hperm]
end Atri
namespace Atri
lemma set2d_map_singleton (L : List ℤ) (d : ℕ) (v : ℤ) :
    set2d (L.map (fun x => [x])) d 0 v = (L.set d v).map (fun x => [x]) := by
  induction L generalizing d with
  | nil => simp [set2d]
  | cons x t ih =>
    cases d with
    | zero => simp [set2d]
    | succ d' =>
      simp only [List.map_cons, set2d, List.getD_cons_succ, List.set_cons_succ]
      have := ih d'
      simp only [set2d] at this
      rw [this]

lemma grid_fold_eq_flat (pairs : List (ℕ × ℤ)) :
    ∀ (L : List ℤ),
      pairs.foldl (fun g pd => set2d g (pd.2 - 1).toNat 0 ((pd.1 : ℤ) + 1))
          (L.map (fun x => [x]))
        = (pairs.foldl (fun a pd => a.set (pd.2 - 1).toNat ((pd.1 : ℤ) + 1)) L).map
            (fun x => [x]) := by
  induction pairs with
  | nil => intro L; rfl
  | cons p t ih =>
    intro L
    simp only [List.foldl_cons, set2d_map_singleton]
    exact ih _

lemma buildNdpos_single (row : List ℤ) (n : ℕ) :
    buildNdpos n 1 [row]
      = (row.enum.foldl (fun a pd => a.set (pd.2 - 1).toNat ((pd.1 : ℤ) + 1))
          (List.replicate n 0)).map (fun x => [x]) := by
  rw [buildNdpos]
  have henum : ([row] : List (List ℤ)).enum = [(0, row)] := rfl
  rw [henum]
  simp only [List.foldl_cons, List.foldl_nil]
  have hrep : List.replicate n (List.replicate 1 (0 : ℤ))
      = (List.replicate n (0 : ℤ)).map (fun x => [x]) := by
    rw [List.map_replicate]
    rfl
  rw [hrep, grid_fold_eq_flat]

lemma foldl_set_pairs_gen {γ : Type} (pos : γ → ℕ) (val : γ → ℤ) (l : List γ) :
    ∀ (acc : List ℤ),
      l.foldl (fun a x => a.set (pos x) (val x)) acc
        = (l.map (fun x => (pos x, val x))).foldl (fun a pv => a.set pv.1 pv.2) acc := by
  induction l with
  | nil => intro acc; rfl
  | cons x t ih => intro acc; simp [List.foldl_cons, ih]

lemma singleFlat_getD (docsE r : List ℕ) (hnd : r.Nodup) (hperm : List.Perm docsE r)
    (d : ℕ) (hd : d < docsE.length) :
    ((singleRow docsE r).enum.foldl
        (fun a pd => a.set (pd.2 - 1).toNat ((pd.1 : ℤ) + 1))
        (List.replicate docsE.length 0)).getD d 0 = (qpos docsE r d : ℤ) + 1 := by
  have hrowlen : (singleRow docsE r).length = docsE.length := by
    rw [singleRow_length, ← hperm.length_eq]
  rw [foldl_set_pairs_gen (fun pd : ℕ × ℤ => (pd.2 - 1).toNat)
    (fun pd : ℕ × ℤ => (pd.1 : ℤ) + 1)]
  have hfst : (((singleRow docsE r).enum.map
      (fun pd : ℕ × ℤ => ((pd.2 - 1).toNat, (pd.1 : ℤ) + 1))).map Prod.fst)
      = (singleRow docsE r).map (fun x => (x - 1).toNat) := by
    rw [List.map_map]
    have h1 : (Prod.fst ∘ fun pd : ℕ × ℤ => ((pd.2 - 1).toNat, (pd.1 : ℤ) + 1))
        = (fun x : ℤ => (x - 1).toNat) ∘ Prod.snd := rfl
    rw [h1, ← List.map_map, List.enum_map_snd]
  apply foldl_set_eval
  · rw [hfst]
    refine List.Nodup.map_on ?_ (singleRow_nodup docsE r hnd hperm)
    intro x hx y hy he
    have hx' := singleRow_mem docsE r hnd hperm x hx
    have hy' := singleRow_mem docsE r hnd hperm y hy
    omega
  · have hq : qpos docsE r d < (singleRow docsE r).length := by
      rw [hrowlen]
      exact qpos_lt docsE r hnd hperm d hd
    have hmem : (qpos docsE r d, (singleRow docsE r).getD (qpos docsE r d) 0)
        ∈ (singleRow docsE r).enum := by
      have hlte : qpos docsE r d < (singleRow docsE r).enum.length := by simpa using hq
      have hm := List.getElem_mem hlte
      rw [List.getElem_enum] at hm
      rw [← List.getD_eq_getElem _ _ hq] at hm
      exact hm
    refine List.mem_map.mpr ⟨(qpos docsE r d, (singleRow docsE r).getD (qpos docsE r d) 0),
      hmem, ?_⟩
    rw [singleRow_getD_qpos docsE r hnd hperm d hd]
    simp
  · simpa using hd
end Atri
namespace Atri
lemma buildList_congr {α : Type} (n : ℕ) (f g : ℕ → α)
    (h : ∀ j, j < n → f j = g j) : buildList n f = buildList n g :=
  List.map_congr_left (fun j hj => h j (List.mem_range.mp hj))

lemma singleFlat_length (docsE r : List ℕ) :
    ((singleRow docsE r).enum.foldl
        (fun a pd => a.set (pd.2 - 1).toNat ((pd.1 : ℤ) + 1))
        (List.replicate docsE.length 0)).length = docsE.length := by
  rw [foldl_set_pairs_gen (fun pd : ℕ × ℤ => (pd.2 - 1).toNat)
    (fun pd : ℕ × ℤ => (pd.1 : ℤ) + 1), foldl_set_length]
  simp

lemma singleNdpos_getD (docsE r : List ℕ) (hnd : r.Nodup) (hperm : List.Perm docsE r)
    (d : ℕ) (hd : d < docsE.length) :
    (buildNdpos docsE.length 1 [singleRow docsE r]).getD d []
      = [(qpos docsE r d : ℤ) + 1] := by
  rw [buildNdpos_single]
  rw [getD_map_of_lt (fun x : ℤ => [x]) _ d [] 0 (by rw [singleFlat_length]; exact hd)]
  rw [singleFlat_getD docsE r hnd hperm d hd]

lemma singleNdpos_shape (docsE r : List ℕ) (hnd : r.Nodup) (hperm : List.Perm docsE r)
    (hn0 : docsE.length ≠ 0) :
    get_matrix_shape (buildNdpos docsE.length 1 [singleRow docsE r])
      = (docsE.length, 1) := by
  rw [get_matrix_shape, buildNdpos_length,
    singleNdpos_getD docsE r hnd hperm 0 (by omega)]
  rfl

lemma single_ptm_row (docsE r : List ℕ) (hnd : r.Nodup) (hperm : List.Perm docsE r)
    (i : ℕ) (hi : i < docsE.length) :
    (get_partial_transition_matrix (buildNdpos docsE.length 1 [singleRow docsE r])
        "mc4" docsE.length 1).getD i []
      = buildList docsE.length (fun j =>
          if i = j then (-1 : ℚ)
          else if qpos docsE r i < qpos docsE r j then 0 else 1) := by
  rw [get_partial_transition_matrix, buildList_getD _ _ i [] hi]
  refine buildList_congr _ _ _ ?_
  intro j hj
  dsimp only
  rw [singleNdpos_getD docsE r hnd hperm i hi, singleNdpos_getD docsE r hnd hperm j hj]
  have hfilter : ((List.range 1).filter
      (fun c => ([(qpos docsE r i : ℤ) + 1]).getD c 0
        < ([(qpos docsE r j : ℤ) + 1]).getD c 0)).length
      = if qpos docsE r i < qpos docsE r j then 1 else 0 := by
    by_cases hq : qpos docsE r i < qpos docsE r j
    · rw [if_pos hq]
      simp [List.range_succ, List.filter, hq]
    · rw [if_neg hq]
      simp [List.range_succ, List.filter, hq]
  rw [hfilter]
  by_cases hij : i = j
  · have hq : ¬ qpos docsE r i < qpos docsE r j := by rw [hij]; omega
    rw [if_neg hq, if_pos ⟨rfl, hij⟩, if_pos hij]
  · rw [if_neg hij]
    by_cases hq : qpos docsE r i < qpos docsE r j
    · rw [if_pos hq, if_pos hq]
      have h1 : ¬ ((1 : ℕ) = 0 ∧ i = j) := by simp [hij]
      rw [if_neg h1, if_pos (by norm_num : ((1 : ℕ) : ℚ) > (1 : ℕ) / 2)]
    · rw [if_neg hq, if_neg hq]
      have h1 : ¬ ((0 : ℕ) = 0 ∧ i = j) := by simp [hij]
      rw [if_neg h1, if_neg (by norm_num : ¬ ((0 : ℕ) : ℚ) > (1 : ℕ) / 2), if_pos rfl]
end Atri
namespace Atri
lemma sum_range_list (f : ℕ → ℚ) : ∀ n : ℕ,
    ((List.range n).map f).sum = ∑ j in Finset.range n, f j := by
  intro n
  induction n with
  | zero => rfl
  | succ m ih =>
    rw [List.range_succ, List.map_append, List.sum_append, Finset.sum_range_succ, ih]
    simp

lemma slice_sum (l : List ℚ) (n i : ℕ) (hlen : l.length = n) (hi : i < n) :
    ((l.drop (i + 1)).take (n - (i + 1))).sum + (l.take i).sum
      = l.sum - l.getD i 0 := by
  have hdl : (l.drop (i + 1)).length = n - (i + 1) := by
    rw [List.length_drop, hlen]
  have htake : (l.drop (i + 1)).take (n - (i + 1)) = l.drop (i + 1) :=
    List.take_of_length_le (by rw [hdl])
  have hil : i < l.length := by omega
  have hsplit : l = l.take i ++ l.drop i := (List.take_append_drop i l).symm
  have hdropi : l.drop i = l[i] :: l.drop (i + 1) := List.drop_eq_getElem_cons hil
  have h1 : (l.take i).sum + (l.drop i).sum = l.sum := by
    rw [← List.sum_append, List.take_append_drop]
  have h2 : (l.drop i).sum = l[i] + (l.drop (i + 1)).sum := by
    rw [hdropi, List.sum_cons]
  rw [htake, List.getD_eq_getElem _ _ hil]
  rw [h2] at h1
  linarith

lemma filter_range_lt_card (c n : ℕ) (h : c ≤ n) :
    ((Finset.range n).filter (fun v => v < c)).card = c := by
  have : (Finset.range n).filter (fun v => v < c) = Finset.range c := by
    ext v
    simp only [Finset.mem_filter, Finset.mem_range]
    omega
  rw [this, Finset.card_range]

lemma filter_range_gt_card (p n : ℕ) (hp : p < n) :
    ((Finset.range n).filter (fun v => p < v)).card = n - (p + 1) := by
  have : (Finset.range n).filter (fun v => p < v) = Finset.Ico (p + 1) n := by
    ext v
    simp only [Finset.mem_filter, Finset.mem_range, Finset.mem_Ico]
    omega
  rw [this, Nat.card_Ico]

lemma sum_indicator_eval (c n : ℕ) (hc : c < n) :
    ∑ v in Finset.range n, (if v = c then (-1 : ℚ) else if c < v then 0 else 1)
      = (c : ℚ) - 1 := by
  have hsplit : ∀ v ∈ Finset.range n,
      (if v = c then (-1 : ℚ) else if c < v then 0 else 1)
        = (if v = c then (-1 : ℚ) else 0) + (if v < c then 1 else 0) := by
    intro v _
    by_cases h1 : v = c
    · subst h1
      simp
    · rw [if_neg h1, if_neg h1]
      by_cases h2 : c < v
      · rw [if_pos h2, if_neg (by omega)]
        ring
      · rw [if_neg h2, if_pos (by omega)]
        ring
  rw [Finset.sum_congr rfl hsplit, Finset.sum_add_distrib]
  rw [Finset.sum_ite_eq' (Finset.range n) c (fun _ => (-1 : ℚ))]
  rw [if_pos (Finset.mem_range.mpr hc), Finset.sum_boole]
  rw [filter_range_lt_card c n (by omega)]
  ring

lemma single_ntm_entry (docsE r : List ℕ) (hnd : r.Nodup) (hperm : List.Perm docsE r)
    (i j : ℕ) (hi : i < docsE.length) (hj : j < docsE.length) :
    ((get_normalized_transition_matrix
        (get_partial_transition_matrix (buildNdpos docsE.length 1 [singleRow docsE r])
          "mc4" docsE.length 1) docsE.length).getD i []).getD j 0
      = if i = j then 1 - (qpos docsE r i : ℚ) / (docsE.length : ℚ)
        else (if qpos docsE r i < qpos docsE r j then 0 else 1) / (docsE.length : ℚ) := by
  have hn0 : (docsE.length : ℚ) ≠ 0 := by
    have hl : 0 < docsE.length := by omega
    exact_mod_cast hl.ne'
  rw [get_normalized_transition_matrix]
  have hplen : (get_partial_transition_matrix (buildNdpos docsE.length 1 [singleRow docsE r])
      "mc4" docsE.length 1).length = docsE.length := by
    rw [get_partial_transition_matrix, buildList_length]
  have hp1row : ((get_partial_transition_matrix (buildNdpos docsE.length 1 [singleRow docsE r])
      "mc4" docsE.length 1).map (fun row => row.map (fun x => x / (docsE.length : ℚ)))).getD i []
      = buildList docsE.length (fun k =>
          (if i = k then (-1 : ℚ) else if qpos docsE r i < qpos docsE r k then 0 else 1)
            / (docsE.length : ℚ)) := by
    rw [getD_map_of_lt _ _ i [] [] (by rw [hplen]; exact hi),
      single_ptm_row docsE r hnd hperm i hi, buildList, buildList, List.map_map]
    rfl
  rw [buildList_getD _ _ i [] hi, buildList_getD _ _ j 0 hj, hp1row]
  set g : ℕ → ℚ := fun k =>
    (if i = k then (-1 : ℚ) else if qpos docsE r i < qpos docsE r k then 0 else 1)
      / (docsE.length : ℚ) with hg
  by_cases hij : i = j
  · rw [if_pos hij, if_pos hij]
    have hsum := slice_sum (buildList docsE.length g) docsE.length i
      (buildList_length _ _) hi
    rw [← hij, hsum]
    have hgsum : (buildList docsE.length g).sum
        = ((qpos docsE r i : ℚ) - 1) / (docsE.length : ℚ) := by
      rw [buildList, sum_range_list]
      have hcongr : ∀ k ∈ Finset.range docsE.length, g k
          = (if qpos docsE r k = qpos docsE r i then (-1 : ℚ)
              else if qpos docsE r i < qpos docsE r k then 0 else 1)
            / (docsE.length : ℚ) := by
        intro k hk
        have hk' := Finset.mem_range.mp hk
        rw [hg]
        dsimp only
        by_cases he : i = k
        · subst he
          simp
        · have hne : qpos docsE r k ≠ qpos docsE r i :=
            fun hq => he (qpos_inj docsE r hnd hperm i k hi hk' hq.symm)
          rw [if_neg he, if_neg hne]
      rw [Finset.sum_congr rfl hcongr, ← Finset.sum_div]
      have hre := qpos_sum_reindex docsE r hnd hperm
        (fun v => if v = qpos docsE r i then (-1 : ℚ)
          else if qpos docsE r i < v then 0 else 1)
      rw [hre, sum_indicator_eval (qpos docsE r i) docsE.length
        (qpos_lt docsE r hnd hperm i hi)]
    have hgi : (buildList docsE.length g).getD i 0 = (-1 : ℚ) / (docsE.length : ℚ) := by
      rw [buildList_getD _ _ i 0 hi, hg]
      dsimp only
      simp
    rw [hgsum, hgi]
    field_simp
  · rw [if_neg hij, if_neg hij, buildList_getD _ _ j 0 hj, hg]
    dsimp only
    rw [if_neg hij]
end Atri
namespace Atri
lemma single_ntm_length (docsE r : List ℕ) :
    (get_normalized_transition_matrix
      (get_partial_transition_matrix (buildNdpos docsE.length 1 [singleRow docsE r])
        "mc4" docsE.length 1) docsE.length).length = docsE.length := by
  rw [get_normalized_transition_matrix]
  exact buildList_length _ _

lemma single_ntm_row_length (docsE r : List ℕ) (i : ℕ) (hi : i < docsE.length) :
    ((get_normalized_transition_matrix
      (get_partial_transition_matrix (buildNdpos docsE.length 1 [singleRow docsE r])
        "mc4" docsE.length 1) docsE.length).getD i []).length = docsE.length := by
  rw [get_normalized_transition_matrix]
  rw [buildList_getD _ _ i [] hi]
  exact buildList_length _ _

lemma singleETM_length (docsE r : List ℕ) :
    (singleETM docsE r).length = docsE.length := by
  rw [singleETM, get_ergodic_transition_matrix, List.length_map]
  exact single_ntm_length docsE r

lemma singleETM_row_length (docsE r : List ℕ) (i : ℕ) (hi : i < docsE.length) :
    ((singleETM docsE r).getD i []).length = docsE.length := by
  rw [singleETM, get_ergodic_transition_matrix]
  rw [getD_map_of_lt _ _ i [] [] (by rw [single_ntm_length]; exact hi)]
  rw [List.length_map]
  exact single_ntm_row_length docsE r i hi

lemma single_etm_entry (docsE r : List ℕ) (hnd : r.Nodup) (hperm : List.Perm docsE r)
    (i j : ℕ) (hi : i < docsE.length) (hj : j < docsE.length) :
    ((singleETM docsE r).getD i []).getD j 0
      = (if i = j then 1 - (qpos docsE r i : ℚ) / (docsE.length : ℚ)
          else (if qpos docsE r i < qpos docsE r j then 0 else 1) / (docsE.length : ℚ))
          * (1 - 3 / 20) + (3 / 20) / (docsE.length : ℚ) := by
  rw [singleETM, get_ergodic_transition_matrix]
  rw [getD_map_of_lt _ _ i [] [] (by rw [single_ntm_length]; exact hi)]
  rw [getD_map_of_lt _ _ j 0 0 (by rw [single_ntm_row_length docsE r i hi]; exact hj)]
  rw [single_ntm_entry docsE r hnd hperm i j hi hj]

lemma single_step_getD (docsE r : List ℕ) (hnd : r.Nodup) (hperm : List.Perm docsE r)
    (φ : ℕ → ℚ) (s : List ℚ) (hslen : s.length = docsE.length)
    (hsval : ∀ d, d < docsE.length → s.getD d 0 = φ (qpos docsE r d))
    (j : ℕ) (hj : j < docsE.length) :
    (matVecDot s (singleETM docsE r)).getD j 0
      = stepFun docsE.length φ (qpos docsE r j) := by
  have hn0 : (docsE.length : ℚ) ≠ 0 := by
    have hl : 0 < docsE.length := by omega
    exact_mod_cast hl.ne'
  have hp : qpos docsE r j < docsE.length := qpos_lt docsE r hnd hperm j hj
  rw [matVecDot, singleETM_row_length docsE r 0 (by omega), singleETM_length,
    buildList_getD _ _ j 0 hj, sum_range_list]
  set G : ℕ → ℚ := fun v => φ v
    * ((if v = qpos docsE r j then 1 - (v : ℚ) / (docsE.length : ℚ)
        else (if v < qpos docsE r j then 0 else 1) / (docsE.length : ℚ))
      * (1 - 3 / 20) + (3 / 20) / (docsE.length : ℚ)) with hG
  have hA : ∀ i ∈ Finset.range docsE.length,
      s.getD i 0 * ((singleETM docsE r).getD i []).getD j 0 = G (qpos docsE r i) := by
    intro i hi
    have hi' := Finset.mem_range.mp hi
    rw [hsval i hi', single_etm_entry docsE r hnd hperm i j hi' hj, hG]
    dsimp only
    by_cases he : i = j
    · subst he
      rw [if_pos rfl, if_pos rfl]
    · have hne : qpos docsE r i ≠ qpos docsE r j :=
        fun hq => he (qpos_inj docsE r hnd hperm i j hi' hj hq)
      rw [if_neg he, if_neg hne]
  rw [Finset.sum_congr rfl hA, qpos_sum_reindex docsE r hnd hperm G]
  set p := qpos docsE r j with hpd
  have hB : ∀ v ∈ Finset.range docsE.length,
      G v = φ v * (3 / 20) / (docsE.length : ℚ)
        + (17 / 20) * ((if v = p then φ p * (1 - (p : ℚ) / (docsE.length : ℚ)) else 0)
          + (if p < v then φ v / (docsE.length : ℚ) else 0)) := by
    intro v _
    rw [hG]
    dsimp only
    by_cases hv : v = p
    · subst hv
      rw [if_pos rfl, if_pos rfl, if_neg (by omega)]
      ring
    · rw [if_neg hv, if_neg hv]
      by_cases hlt : v < p
      · rw [if_pos hlt, if_neg (by omega)]
        ring
      · rw [if_neg hlt, if_pos (by omega)]
        ring
  rw [Finset.sum_congr rfl hB, Finset.sum_add_distrib, ← Finset.mul_sum,
    Finset.sum_add_distrib]
  rw [Finset.sum_ite_eq' (Finset.range docsE.length) p
    (fun _ => φ p * (1 - (p : ℚ) / (docsE.length : ℚ)))]
  rw [if_pos (Finset.mem_range.mpr hp)]
  have hU : ∑ v in Finset.range docsE.length,
      (if p < v then φ v / (docsE.length : ℚ) else 0)
      = (∑ v in (Finset.range docsE.length).filter (fun v => p < v), φ v)
        / (docsE.length : ℚ) := by
    rw [Finset.sum_div, Finset.sum_filter]
  have hS : ∑ v in Finset.range docsE.length, φ v * (3 / 20) / (docsE.length : ℚ)
      = (∑ v in Finset.range docsE.length, φ v) * (3 / 20) / (docsE.length : ℚ) := by
    rw [← Finset.sum_div, ← Finset.sum_mul]
  rw [hU, hS, stepFun]
  have hfin : Finset.sum (Finset.range docsE.length) φ
      = ∑ v in Finset.range docsE.length, φ v := rfl
  field_simp
  ring
end Atri
namespace Atri
lemma stepFun_pos (n : ℕ) (φ : ℕ → ℚ) (hn0 : 0 < n)
    (hpos : ∀ p, p < n → 0 < φ p) (p : ℕ) (hp : p < n) : 0 < stepFun n φ p := by
  have hnq : (0 : ℚ) < (n : ℚ) := by exact_mod_cast hn0
  have hS : 0 < ∑ v in Finset.range n, φ v :=
    Finset.sum_pos (fun i hi => hpos i (Finset.mem_range.mp hi))
      (Finset.nonempty_range_iff.mpr hn0.ne')
  have hU : 0 ≤ ∑ v in (Finset.range n).filter (fun v => p < v), φ v :=
    Finset.sum_nonneg (fun i hi =>
      le_of_lt (hpos i (Finset.mem_range.mp (Finset.mem_filter.mp hi).1)))
  have hφp : 0 < φ p * ((n : ℚ) - (p : ℚ)) := by
    refine mul_pos (hpos p hp) ?_
    have : (p : ℚ) < (n : ℚ) := by exact_mod_cast hp
    linarith
  have h1 : 0 < 3 * (∑ v in Finset.range n, φ v) / (20 * (n : ℚ)) :=
    div_pos (by linarith) (by linarith)
  have h2 : 0 < 17 / (20 * (n : ℚ)) := div_pos (by norm_num) (by linarith)
  rw [stepFun]
  have h3 : 0 < 17 / (20 * (n : ℚ))
      * ((∑ v in (Finset.range n).filter (fun v => p < v), φ v)
        + φ p * ((n : ℚ) - (p : ℚ))) := mul_pos h2 (by linarith)
  linarith

lemma stepFun_anti (n : ℕ) (φ : ℕ → ℚ)
    (hpos : ∀ p, p < n → 0 < φ p)
    (hanti : ∀ p p', p < p' → p' < n → φ p' < φ p)
    (p p' : ℕ) (h : p < p') (h' : p' < n) : stepFun n φ p' < stepFun n φ p := by
  have hnq : (0 : ℚ) < (n : ℚ) := by
    have : 0 < n := by omega
    exact_mod_cast this
  have hU : (∑ v in (Finset.range n).filter (fun v => p' < v), φ v)
      ≤ ∑ v in (Finset.range n).filter (fun v => p < v), φ v := by
    refine Finset.sum_le_sum_of_subset_of_nonneg ?_ ?_
    · intro x hx
      have hx' := Finset.mem_filter.mp hx
      exact Finset.mem_filter.mpr ⟨hx'.1, by omega⟩
    · intro i hi _
      exact le_of_lt (hpos i (Finset.mem_range.mp (Finset.mem_filter.mp hi).1))
  have hφ : φ p' * ((n : ℚ) - (p' : ℚ)) < φ p * ((n : ℚ) - (p : ℚ)) := by
    have hc1 : (p : ℚ) ≤ (p' : ℚ) := by exact_mod_cast le_of_lt h
    have hc2 : (p' : ℚ) < (n : ℚ) := by exact_mod_cast h'
    have ha : φ p' * ((n : ℚ) - (p' : ℚ)) ≤ φ p' * ((n : ℚ) - (p : ℚ)) :=
      mul_le_mul_of_nonneg_left (by linarith) (le_of_lt (hpos p' h'))
    have hb : φ p' * ((n : ℚ) - (p : ℚ)) < φ p * ((n : ℚ) - (p : ℚ)) :=
      mul_lt_mul_of_pos_right (hanti p p' h h') (by linarith)
    linarith
  have h2 : 0 < 17 / (20 * (n : ℚ)) := div_pos (by norm_num) (by linarith)
  rw [stepFun, stepFun]
  have hinner := add_lt_add_of_le_of_lt hU hφ
  have := mul_lt_mul_of_pos_left hinner h2
  linarith

lemma stepFun_uniform (n : ℕ) (p : ℕ) (hp : p < n) :
    stepFun n (fun _ => 1 / (n : ℚ)) p
      = 1 / (n : ℚ) + 17 * ((n : ℚ) - 1 - 2 * (p : ℚ)) / (20 * (n : ℚ) ^ 2) := by
  have hn0 : (n : ℚ) ≠ 0 := by
    have hl : 0 < n := by omega
    exact_mod_cast hl.ne'
  rw [stepFun]
  rw [Finset.sum_const, Finset.card_range, nsmul_eq_mul]
  rw [Finset.sum_const, filter_range_gt_card p n hp, nsmul_eq_mul]
  have hcast : ((n - (p + 1) : ℕ) : ℚ) = (n : ℚ) - (p : ℚ) - 1 := by
    rw [Nat.cast_sub hp]
    push_cast
    ring
  rw [hcast]
  field_simp
  ring
end Atri
namespace Atri
lemma single_loop_inv (docsE r : List ℕ) (hnd : r.Nodup) (hperm : List.Perm docsE r)
    (hn0 : docsE.length ≠ 0) :
    ∀ (fuel : ℕ) (s : List ℚ) (φ : ℕ → ℚ),
      s.length = docsE.length →
      (∀ d, d < docsE.length → s.getD d 0 = φ (qpos docsE r d)) →
      (∀ p, p < docsE.length → 0 < φ p) →
      (∀ p p', p < p' → p' < docsE.length → φ p' < φ p) →
      ∃ ψ : ℕ → ℚ,
        (stationary_loop (singleETM docsE r) (1 / 10000000) fuel s).length
            = docsE.length ∧
        (∀ d, d < docsE.length →
          (stationary_loop (singleETM docsE r) (1 / 10000000) fuel s).getD d 0
            = ψ (qpos docsE r d)) ∧
        (∀ p, p < docsE.length → 0 < ψ p) ∧
        (∀ p p', p < p' → p' < docsE.length → ψ p' < ψ p) := by
  intro fuel
  induction fuel with
  | zero =>
    intro s φ h1 h2 h3 h4
    exact ⟨φ, h1, h2, h3, h4⟩
  | succ f ih =>
    intro s φ h1 h2 h3 h4
    rw [stationary_loop]
    split
    · exact ⟨φ, h1, h2, h3, h4⟩
    · refine ih (matVecDot s (singleETM docsE r)) (stepFun docsE.length φ) ?_ ?_ ?_ ?_
      · rw [matVecDot_length, singleETM_row_length docsE r 0 (by omega)]
      · intro d hd
        exact single_step_getD docsE r hnd hperm φ s h1 h2 d hd
      · intro p hp
        exact stepFun_pos docsE.length φ (by omega) h3 p hp
      · intro p p' hpp hp'
        exact stepFun_anti docsE.length φ h3 h4 p p' hpp hp'

lemma getD_replicate_self (n d : ℕ) (c : ℚ) (hd : d < n) :
    (List.replicate n c).getD d 0 = c := by
  rw [List.getD_eq_getElem _ _ (by simpa using hd)]
  simp

lemma first_step_no_break (docsE r : List ℕ) (hnd : r.Nodup) (hperm : List.Perm docsE r)
    (h2 : 2 ≤ docsE.length) (h6 : docsE.length ≤ 1000000) :
    (List.range (matVecDot (List.replicate docsE.length (1 / (docsE.length : ℚ)))
        (singleETM docsE r)).length).all
      (fun k => |(matVecDot (List.replicate docsE.length (1 / (docsE.length : ℚ)))
            (singleETM docsE r)).getD k 0
          - (List.replicate docsE.length (1 / (docsE.length : ℚ))).getD k 0|
        < 1 / 10000000) = false := by
  set n := docsE.length with hn
  have hnq : (2 : ℚ) ≤ (n : ℚ) := by exact_mod_cast h2
  have h6q : (n : ℚ) ≤ 1000000 := by exact_mod_cast h6
  have hnpos : (0 : ℚ) < (n : ℚ) := by linarith
  obtain ⟨d0, hd0, hq0⟩ := qpos_surj docsE r hnd hperm 0 (by omega)
  have hslen : (List.replicate n (1 / (n : ℚ))).length = n := by simp
  have hsval : ∀ d, d < n → (List.replicate n (1 / (n : ℚ))).getD d 0
      = (fun _ : ℕ => 1 / (n : ℚ)) (qpos docsE r d) := by
    intro d hd
    exact getD_replicate_self n d _ hd
  have hstep := single_step_getD docsE r hnd hperm (fun _ => 1 / (n : ℚ))
    (List.replicate n (1 / (n : ℚ))) hslen hsval d0 hd0
  rw [hq0, stepFun_uniform n 0 (by omega)] at hstep
  have hlen : (matVecDot (List.replicate n (1 / (n : ℚ))) (singleETM docsE r)).length
      = n := by
    rw [matVecDot_length, singleETM_row_length docsE r 0 (by omega)]
  rw [List.all_eq_false]
  refine ⟨d0, List.mem_range.mpr (by rw [hlen]; exact hd0), ?_⟩
  simp only [decide_eq_true_eq]
  rw [hstep, getD_replicate_self n d0 _ (by rw [hn]; exact hd0)]
  push_cast
  have habs : |1 / (n : ℚ) + 17 * ((n : ℚ) - 1 - 2 * 0) / (20 * (n : ℚ) ^ 2)
      - 1 / (n : ℚ)| = 17 * ((n : ℚ) - 1) / (20 * (n : ℚ) ^ 2) := by
    have heq : 1 / (n : ℚ) + 17 * ((n : ℚ) - 1 - 2 * 0) / (20 * (n : ℚ) ^ 2)
        - 1 / (n : ℚ) = 17 * ((n : ℚ) - 1) / (20 * (n : ℚ) ^ 2) := by ring
    rw [heq, abs_of_nonneg]
    exact div_nonneg (by linarith) (by positivity)
  rw [habs]
  intro hcon
  rw [div_lt_div_iff₀ (by positivity) (by norm_num)] at hcon
  nlinarith [mul_le_mul_of_nonneg_right h6q (le_of_lt hnpos)]
end Atri
namespace Atri
lemma lookup_append_of_none (l1 l2 : List (ℚ × ℕ)) (a : ℚ)
    (h : l1.lookup a = none) : (l1 ++ l2).lookup a = l2.lookup a := by
  induction l1 with
  | nil => rfl
  | cons p t ih =>
    cases hb : (a == p.1) with
    | true =>
      rw [List.lookup] at h
      rw [hb] at h
      simp at h
    | false =>
      rw [List.cons_append, List.lookup, hb]
      rw [List.lookup, hb] at h
      exact ih h

lemma enum_map_shift (t : List ℚ) (y : ℚ) (k : ℕ) :
    (y :: t).enum.map (fun p : ℕ × ℚ => (p.2, k + p.1))
      = (y, k) :: t.enum.map (fun p : ℕ × ℚ => (p.2, k + 1 + p.1)) := by
  apply List.ext_getElem
  · simp
  · intro i h1 h2
    cases i with
    | zero =>
      simp
    | succ i2 =>
      have hi2 : i2 < t.length := by simpa using h1
      simp only [List.getElem_map, List.getElem_enum, List.getElem_cons_succ]
      simp only [Prod.mk.injEq]
      exact ⟨trivial, by omega⟩

lemma aggFold_no_key (L : List ℚ) :
    ∀ (acc : List (ℚ × ℕ)) (k : ℕ),
      (∀ x ∈ L, acc.lookup x = none) → L.Nodup →
      L.foldl (fun (st : List (ℚ × ℕ) × ℕ) num =>
          if (st.1.lookup num).isSome then st else (st.1 ++ [(num, st.2)], st.2 + 1))
        (acc, k)
      = (acc ++ L.enum.map (fun p : ℕ × ℚ => (p.2, k + p.1)), k + L.length) := by
  induction L with
  | nil => intro acc k _ _; simp
  | cons x t ih =>
    intro acc k hnk hnd
    rw [List.foldl_cons]
    have hx : acc.lookup x = none := hnk x (by simp)
    rw [hx]
    simp only [Option.isSome_none, Bool.false_eq_true, if_false]
    have hxt : x ∉ t := (List.nodup_cons.mp hnd).1
    have ht : ∀ y ∈ t, (acc ++ [(x, k)]).lookup y = none := by
      intro y hy
      rw [lookup_append_of_none _ _ _ (hnk y (by simp [hy]))]
      have hne : (y == x) = false := by
        simp only [beq_eq_false_iff_ne, ne_eq]
        intro he
        exact hxt (he ▸ hy)
      rw [List.lookup, hne]
      rfl
    rw [ih (acc ++ [(x, k)]) (k + 1) ht (List.nodup_cons.mp hnd).2]
    rw [enum_map_shift]
    simp only [List.append_assoc, List.singleton_append, List.length_cons]
    refine congrArg₂ _ rfl ?_
    omega

lemma lookup_enum_map (L : List ℚ) :
    ∀ (k : ℕ) (x : ℚ), L.Nodup → x ∈ L →
      (L.enum.map (fun p : ℕ × ℚ => (p.2, k + p.1))).lookup x
        = some (k + L.indexOf x) := by
  induction L with
  | nil => intro k x _ hx; simp at hx
  | cons y t ih =>
    intro k x hnd hx
    rw [enum_map_shift]
    by_cases he : x = y
    · subst he
      rw [List.lookup, beq_self_eq_true, List.indexOf_cons_self]
      dsimp only
      simp
    · have hne : (x == y) = false := by
        simp only [beq_eq_false_iff_ne, ne_eq]
        exact he
      rw [List.lookup, hne]
      have hxt : x ∈ t := by
        rcases List.mem_cons.mp hx with h | h
        · exact absurd h he
        · exact h
      rw [ih (k + 1) x (List.nodup_cons.mp hnd).2 hxt]
      dsimp only
      rw [List.indexOf_cons_ne _ (Ne.symm he)]
      refine congrArg _ ?_
      omega
end Atri
namespace Atri
lemma get_aggregated_ranks_strict (m L : List ℚ) (hperm : List.Perm m L)
    (hsorted : L.Pairwise (fun a b => b < a)) :
    get_aggregated_ranks m = m.map (fun x => L.indexOf x + 1) := by
  have hnd : L.Nodup := hsorted.imp (fun h => ne_of_gt h)
  have hsorted' : List.Sorted (fun a b => b ≤ a) L := hsorted.imp (fun h => le_of_lt h)
  have hsortEq : List.insertionSort (fun a b => b ≤ a) m = L :=
    List.eq_of_perm_of_sorted ((List.perm_insertionSort _ m).trans hperm)
      (List.sorted_insertionSort _ m) hsorted'
  simp only [get_aggregated_ranks]
  rw [hsortEq, aggFold_no_key L [] 1 (fun x _ => rfl) hnd]
  simp only [List.nil_append]
  refine List.map_congr_left ?_
  intro x hxm
  rw [lookup_enum_map L 1 x hnd (hperm.subset hxm)]
  simp [Nat.add_comm]
end Atri
namespace Atri
lemma mc4_run (df : List (List ℤ)) (items : ℕ) (hitems : df.length = items)
    (h0 : items ≠ 0) :
    mc4_aggregator df = .ok ((List.range (items + 1)).zip
      (get_aggregated_ranks (get_stationary_distribution_matrix
        (List.replicate items (1 / (items : ℚ)))
        (get_ergodic_transition_matrix (get_normalized_transition_matrix
          (get_partial_transition_matrix df "mc4" items (get_matrix_shape df).2)
          items) items (3 / 20))
        (1 / 10000000) 200))) := by
  have hshape : (get_matrix_shape df).1 = items := by
    simp [get_matrix_shape, hitems]
  have hinit : get_initial_distribution_matrix items
      = .ok (List.replicate items (1 / (items : ℚ))) := by
    rw [get_initial_distribution_matrix, if_neg h0]
  rw [mc4_aggregator]
  simp only [bind, Except.bind, hshape, hinit, pure, Except.pure]
  rw [get_mapped_final_ranks]

lemma markov_single_run (docsE r : List ℕ) (hnd : r.Nodup) (hperm : List.Perm docsE r)
    (hr0 : docsE.length ≠ 0) :
    markov_rank_by_id docsE [r] = .ok (List.insertionSort (fun a b => b.1 ≤ a.1)
      (((List.range (docsE.length + 1)).zip
          (get_aggregated_ranks (get_stationary_distribution_matrix
            (List.replicate docsE.length (1 / (docsE.length : ℚ)))
            (singleETM docsE r) (1 / 10000000) 200))).map
        (fun p => (((docsE.length : ℚ) - (p.2 : ℚ)), docsE.getD p.1 0)))) := by
  have hfilter : docsE.filter (fun d => ¬ d ∈ r) = [] := by
    rw [List.filter_eq_nil_iff]
    intro d hd
    have hm : d ∈ r := hperm.subset hd
    simp [hm]
  have hrowlen : (singleRow docsE r).length = docsE.length := by
    rw [singleRow_length, ← hperm.length_eq]
  have h1 : collectE (fun (p : List ℕ × List ℕ) =>
      let row : List ℤ := p.1.map (fun d => (docsE.indexOf d : ℤ) + 1)
        ++ p.2.map (fun d => (docsE.indexOf d : ℤ) + 1)
      if row.length = docsE.length then Except.ok row
      else Except.error (AErr.valueError "could not broadcast"))
      (([r] : List (List ℕ)).zip (([r] : List (List ℕ)).map
        (fun r' => docsE.filter (fun d => ¬ d ∈ r'))))
      = .ok ((([r] : List (List ℕ)).zip (([r] : List (List ℕ)).map
          (fun r' => docsE.filter (fun d => ¬ d ∈ r')))).map
        (fun p => p.1.map (fun d => (docsE.indexOf d : ℤ) + 1)
          ++ p.2.map (fun d => (docsE.indexOf d : ℤ) + 1))) := by
    refine collectE_map_of_ok _ _ _ (fun p hp => ?_)
    simp only [List.map_cons, List.map_nil, List.zip_cons_cons, List.zip_nil_right,
      List.mem_singleton] at hp
    subst hp
    simp only []
    rw [hfilter]
    rw [if_pos (by simpa [singleRow] using hrowlen)]
  have hND : ((([r] : List (List ℕ)).zip (([r] : List (List ℕ)).map
      (fun r' => docsE.filter (fun d => ¬ d ∈ r')))).map
      (fun p => p.1.map (fun d => (docsE.indexOf d : ℤ) + 1)
        ++ p.2.map (fun d => (docsE.indexOf d : ℤ) + 1)))
      = [singleRow docsE r] := by
    simp only [List.map_cons, List.map_nil, List.zip_cons_cons, List.zip_nil_right]
    rw [hfilter]
    simp [singleRow]
  have hmc4 := mc4_run (buildNdpos docsE.length 1 [singleRow docsE r]) docsE.length
    (buildNdpos_length _ _ _) hr0
  rw [singleNdpos_shape docsE r hnd hperm hr0] at hmc4
  simp only [] at hmc4
  have hetm_fold : get_ergodic_transition_matrix
      (get_normalized_transition_matrix
        (get_partial_transition_matrix
          (buildNdpos docsE.length 1 [singleRow docsE r]) "mc4" docsE.length 1)
        docsE.length)
      docsE.length (3 / 20) = singleETM docsE r := rfl
  rw [hetm_fold] at hmc4
  rw [markov_rank_by_id, if_pos (by simp : ([r] : List (List ℕ)).length > 0)]
  simp only [bind, Except.bind, h1]
  rw [hND, (show ([r] : List (List ℕ)).length = 1 from rfl), hmc4]
  simp only [pure, Except.pure]
  rw [buildNdpos_length]
end Atri
namespace Atri
lemma qpos_range_perm (docsE r : List ℕ) (hnd : r.Nodup) (hperm : List.Perm docsE r) :
    List.Perm ((List.range docsE.length).map (qpos docsE r))
      (List.range docsE.length) := by
  have hnodup : ((List.range docsE.length).map (qpos docsE r)).Nodup := by
    refine List.Nodup.map_on ?_ (List.nodup_range _)
    intro x hx y hy he
    exact qpos_inj docsE r hnd hperm x y (List.mem_range.mp hx) (List.mem_range.mp hy) he
  rw [List.perm_ext_iff_of_nodup hnodup (List.nodup_range _)]
  intro a
  simp only [List.mem_map, List.mem_range]
  constructor
  · rintro ⟨d, hd, rfl⟩
    exact qpos_lt docsE r hnd hperm d hd
  · intro ha
    obtain ⟨d, hd, hq⟩ := qpos_surj docsE r hnd hperm a ha
    exact ⟨d, hd, hq⟩

lemma zip_range_succ_map (n : ℕ) (g : ℕ → ℕ) :
    (List.range (n + 1)).zip ((List.range n).map g)
      = (List.range n).map (fun d => (d, g d)) := by
  apply List.ext_getElem
  · simp [Nat.min_def]
  · intro i h1 h2
    have hi : i < n := by simpa using h2
    simp [List.getElem_zip, List.getElem_range, List.getElem_map]

lemma docsE_getD_qpos (docsE r : List ℕ) (hnd : r.Nodup) (hperm : List.Perm docsE r)
    (d : ℕ) (hd : d < docsE.length) :
    docsE.getD d 0 = r.getD (qpos docsE r d) 0 := by
  have hq := singleRow_getD_qpos docsE r hnd hperm d hd
  have hqlt : qpos docsE r d < r.length := by
    have := qpos_lt docsE r hnd hperm d hd
    have hl := hperm.length_eq
    omega
  have hrow : (singleRow docsE r).getD (qpos docsE r d) 0
      = (docsE.indexOf (r.getD (qpos docsE r d) 0) : ℤ) + 1 := by
    rw [singleRow, getD_map_of_lt _ _ _ 0 0 hqlt]
  rw [hrow] at hq
  have hidx : docsE.indexOf (r.getD (qpos docsE r d) 0) = d := by omega
  have hlt : docsE.indexOf (r.getD (qpos docsE r d) 0) < docsE.length := by omega
  conv_lhs => rw [← hidx]
  rw [List.getD_eq_getElem _ _ hlt]
  exact List.getElem_indexOf hlt

lemma single_stationary_inv (docsE r : List ℕ) (hnd : r.Nodup)
    (hperm : List.Perm docsE r) (hn0 : docsE.length ≠ 0)
    (hb : docsE.length ≤ 1000000) :
    ∃ ψ : ℕ → ℚ,
      (get_stationary_distribution_matrix
        (List.replicate docsE.length (1 / (docsE.length : ℚ)))
        (singleETM docsE r) (1 / 10000000) 200).length = docsE.length ∧
      (∀ d, d < docsE.length →
        (get_stationary_distribution_matrix
          (List.replicate docsE.length (1 / (docsE.length : ℚ)))
          (singleETM docsE r) (1 / 10000000) 200).getD d 0
            = ψ (qpos docsE r d)) ∧
      (∀ p, p < docsE.length → 0 < ψ p) ∧
      (∀ p p', p < p' → p' < docsE.length → ψ p' < ψ p) := by
  have hnq : (0 : ℚ) < (docsE.length : ℚ) := by
    have : 0 < docsE.length := by omega
    exact_mod_cast this
  rw [get_stationary_distribution_matrix]
  by_cases h1 : docsE.length = 1
  · exact single_loop_inv docsE r hnd hperm hn0 200
      (List.replicate docsE.length (1 / (docsE.length : ℚ)))
      (fun _ => 1 / (docsE.length : ℚ))
      (by simp)
      (fun d hd => getD_replicate_self docsE.length d _ hd)
      (fun p hp => div_pos (by norm_num) hnq)
      (fun p p' hpp hp' => absurd hp' (by omega))
  · have h2 : 2 ≤ docsE.length := by omega
    have h200 : (200 : ℕ) = 199 + 1 := rfl
    rw [h200, stationary_loop]
    split
    · next hcond =>
        rw [first_step_no_break docsE r hnd hperm h2 hb] at hcond
        simp at hcond
    · next hcond =>
        refine single_loop_inv docsE r hnd hperm hn0 199
          (matVecDot (List.replicate docsE.length (1 / (docsE.length : ℚ)))
            (singleETM docsE r))
          (stepFun docsE.length (fun _ => 1 / (docsE.length : ℚ)))
          ?_ ?_ ?_ ?_
        · rw [matVecDot_length, singleETM_row_length docsE r 0 (by omega)]
        · intro d hd
          exact single_step_getD docsE r hnd hperm (fun _ => 1 / (docsE.length : ℚ))
            (List.replicate docsE.length (1 / (docsE.length : ℚ)))
            (by simp)
            (fun d' hd' => getD_replicate_self docsE.length d' _ hd')
            d hd
        · intro p hp
          exact stepFun_pos docsE.length (fun _ => 1 / (docsE.length : ℚ)) (by omega)
            (fun p' hp' => div_pos (by norm_num) hnq) p hp
        · intro p p' hpp hp'
          rw [stepFun_uniform docsE.length p' hp',
            stepFun_uniform docsE.length p (by omega)]
          have hc : (p : ℚ) < (p' : ℚ) := by exact_mod_cast hpp
          have h20 : (0 : ℚ) < 20 * (docsE.length : ℚ) ^ 2 := by
            have := pow_pos hnq 2
            linarith
          have hnum : 17 * ((docsE.length : ℚ) - 1 - 2 * (p' : ℚ))
              < 17 * ((docsE.length : ℚ) - 1 - 2 * (p : ℚ)) := by linarith
          have hkey : 17 * ((docsE.length : ℚ) - 1 - 2 * (p' : ℚ))
                / (20 * (docsE.length : ℚ) ^ 2)
              < 17 * ((docsE.length : ℚ) - 1 - 2 * (p : ℚ))
                / (20 * (docsE.length : ℚ) ^ 2) := by
            rw [div_eq_mul_inv, div_eq_mul_inv]
            exact mul_lt_mul_of_pos_right hnum (inv_pos.mpr h20)
          linarith
end Atri
namespace Atri
lemma markov_single (docsE r : List ℕ) (hnd : r.Nodup) (hperm : List.Perm docsE r)
    (hr0 : r ≠ []) (hb : r.length ≤ 1000000) :
    (markov_rank_by_id docsE [r]).map (fun out => out.map Prod.snd)
      = Except.ok r := by
  have hlen : docsE.length = r.length := hperm.length_eq
  have hn0 : docsE.length ≠ 0 := by
    rw [hlen]
    simpa [List.length_eq_zero] using hr0
  obtain ⟨ψ, hψlen, hψval, hψpos, hψanti⟩ :=
    single_stationary_inv docsE r hnd hperm hn0 (by omega)
  have hsfin_list : get_stationary_distribution_matrix
      (List.replicate docsE.length (1 / (docsE.length : ℚ)))
      (singleETM docsE r) (1 / 10000000) 200
      = (List.range docsE.length).map (fun d => ψ (qpos docsE r d)) := by
    apply List.ext_getElem
    · rw [hψlen, List.length_map, List.length_range]
    · intro i hi1 hi2
      have hi : i < docsE.length := by rw [hψlen] at hi1; exact hi1
      have hv := hψval i hi
      rw [List.getD_eq_getElem _ _ (by rw [hψlen]; exact hi)] at hv
      simp only [List.getElem_map, List.getElem_range]
      exact hv
  have hLpair : (((List.range docsE.length).map ψ)).Pairwise (fun a b => b < a) := by
    rw [List.pairwise_iff_getElem]
    intro i j hi hj hij
    simp only [List.getElem_map, List.getElem_range]
    exact hψanti i j hij (by simpa using hj)
  have hperm_mL : List.Perm
      (get_stationary_distribution_matrix
        (List.replicate docsE.length (1 / (docsE.length : ℚ)))
        (singleETM docsE r) (1 / 10000000) 200)
      ((List.range docsE.length).map ψ) := by
    rw [hsfin_list]
    have hmm : (List.range docsE.length).map (fun d => ψ (qpos docsE r d))
        = ((List.range docsE.length).map (qpos docsE r)).map ψ := by
      rw [List.map_map]
      rfl
    rw [hmm]
    exact List.Perm.map ψ (qpos_range_perm docsE r hnd hperm)
  have hLnd : ((List.range docsE.length).map ψ).Nodup :=
    hLpair.imp (fun h => ne_of_gt h)
  have hFR : get_aggregated_ranks
      (get_stationary_distribution_matrix
        (List.replicate docsE.length (1 / (docsE.length : ℚ)))
        (singleETM docsE r) (1 / 10000000) 200)
      = (List.range docsE.length).map (fun d => qpos docsE r d + 1) := by
    rw [get_aggregated_ranks_strict _ _ hperm_mL hLpair, hsfin_list, List.map_map]
    refine List.map_congr_left ?_
    intro d hd
    have hd' : d < docsE.length := List.mem_range.mp hd
    have hq : qpos docsE r d < docsE.length := qpos_lt docsE r hnd hperm d hd'
    simp only [Function.comp]
    have hlt : qpos docsE r d < ((List.range docsE.length).map ψ).length := by
      simpa using hq
    have h1 : ((List.range docsE.length).map ψ).getD (qpos docsE r d) 0
        = ψ (qpos docsE r d) := by
      rw [getD_map_of_lt ψ _ _ 0 0 (by simpa using hq)]
      rw [List.getD_eq_getElem _ _ (by simpa using hq), List.getElem_range]
    have hio := List.indexOf_getElem hLnd (qpos docsE r d) hlt
    rw [List.getD_eq_getElem _ _ hlt] at h1
    rw [h1] at hio
    rw [hio]
  rw [markov_single_run docsE r hnd hperm hn0]
  simp only [Except.map]
  refine congrArg Except.ok ?_
  rw [hFR, zip_range_succ_map docsE.length (fun d => qpos docsE r d + 1), List.map_map]
  have hRL : (List.range docsE.length).map ((fun p : ℕ × ℕ =>
      (((docsE.length : ℚ)) - (p.2 : ℚ), docsE.getD p.1 0))
        ∘ (fun d => (d, qpos docsE r d + 1)))
      = (List.range docsE.length).map (fun d =>
          (((docsE.length : ℚ)) - ((qpos docsE r d + 1 : ℕ) : ℚ),
            r.getD (qpos docsE r d) 0)) := by
    refine List.map_congr_left ?_
    intro d hd
    have hd' : d < docsE.length := List.mem_range.mp hd
    simp only [Function.comp]
    rw [docsE_getD_qpos docsE r hnd hperm d hd']
  rw [hRL]
  have hcomp : (List.range docsE.length).map (fun d =>
      (((docsE.length : ℚ)) - ((qpos docsE r d + 1 : ℕ) : ℚ),
        r.getD (qpos docsE r d) 0))
      = ((List.range docsE.length).map (qpos docsE r)).map (fun p =>
          (((docsE.length : ℚ)) - ((p + 1 : ℕ) : ℚ), r.getD p 0)) := by
    rw [List.map_map]
    rfl
  have hRLperm : List.Perm ((List.range docsE.length).map (fun d =>
      (((docsE.length : ℚ)) - ((qpos docsE r d + 1 : ℕ) : ℚ),
        r.getD (qpos docsE r d) 0)))
      ((List.range docsE.length).map (fun p =>
        (((docsE.length : ℚ)) - ((p + 1 : ℕ) : ℚ), r.getD p 0))) := by
    rw [hcomp]
    exact List.Perm.map _ (qpos_range_perm docsE r hnd hperm)
  haveI instTransPair : IsTrans (ℚ × ℕ) (fun a b => b.1 ≤ a.1) :=
    ⟨fun _ _ _ h1 h2 => le_trans h2 h1⟩
  haveI instTotalPair : IsTotal (ℚ × ℕ) (fun a b => b.1 ≤ a.1) :=
    ⟨fun a b => le_total b.1 a.1⟩
  haveI instAntiPair : IsAntisymm (ℚ × ℕ) (fun a b => b.1 < a.1) :=
    ⟨fun a b h1 h2 => absurd h2 (lt_asymm h1)⟩
  have hsortperm := List.perm_insertionSort (fun (a b : ℚ × ℕ) => b.1 ≤ a.1)
    ((List.range docsE.length).map (fun d =>
      (((docsE.length : ℚ)) - ((qpos docsE r d + 1 : ℕ) : ℚ),
        r.getD (qpos docsE r d) 0)))
  have hsorted1 := List.sorted_insertionSort (fun (a b : ℚ × ℕ) => b.1 ≤ a.1)
    ((List.range docsE.length).map (fun d =>
      (((docsE.length : ℚ)) - ((qpos docsE r d + 1 : ℕ) : ℚ),
        r.getD (qpos docsE r d) 0)))
  have hTfstnd : (((List.range docsE.length).map (fun p =>
      (((docsE.length : ℚ)) - ((p + 1 : ℕ) : ℚ), r.getD p 0))).map Prod.fst).Nodup := by
    rw [List.map_map]
    have hfeq : (Prod.fst ∘ fun p : ℕ =>
        (((docsE.length : ℚ)) - ((p + 1 : ℕ) : ℚ), r.getD p 0))
        = fun p : ℕ => ((docsE.length : ℚ)) - ((p + 1 : ℕ) : ℚ) := rfl
    rw [hfeq]
    refine List.Nodup.map ?_ (List.nodup_range _)
    intro a b hab
    have : ((a + 1 : ℕ) : ℚ) = ((b + 1 : ℕ) : ℚ) := by
      push_cast at hab ⊢
      linarith
    exact_mod_cast Nat.succ_injective (by exact_mod_cast this)
  have hfstnd1 : ((List.insertionSort (fun (a b : ℚ × ℕ) => b.1 ≤ a.1)
      ((List.range docsE.length).map (fun d =>
        (((docsE.length : ℚ)) - ((qpos docsE r d + 1 : ℕ) : ℚ),
          r.getD (qpos docsE r d) 0)))).map Prod.fst).Nodup := by
    refine (List.Perm.nodup_iff (List.Perm.map Prod.fst
      (hsortperm.trans hRLperm))).mpr hTfstnd
  have hpair_ne : (List.insertionSort (fun (a b : ℚ × ℕ) => b.1 ≤ a.1)
      ((List.range docsE.length).map (fun d =>
        (((docsE.length : ℚ)) - ((qpos docsE r d + 1 : ℕ) : ℚ),
          r.getD (qpos docsE r d) 0)))).Pairwise (fun a b => a.1 ≠ b.1) :=
    List.pairwise_map.mp hfstnd1
  have hsorted1_strict : (List.insertionSort (fun (a b : ℚ × ℕ) => b.1 ≤ a.1)
      ((List.range docsE.length).map (fun d =>
        (((docsE.length : ℚ)) - ((qpos docsE r d + 1 : ℕ) : ℚ),
          r.getD (qpos docsE r d) 0)))).Pairwise (fun a b => b.1 < a.1) :=
    (hsorted1.and hpair_ne).imp (fun hx => lt_of_le_of_ne hx.1 (Ne.symm hx.2))
  have hsortedT : ((List.range docsE.length).map (fun p =>
      (((docsE.length : ℚ)) - ((p + 1 : ℕ) : ℚ), r.getD p 0))).Pairwise
        (fun a b => b.1 < a.1) := by
    rw [List.pairwise_iff_getElem]
    intro i j hi hj hij
    simp only [List.getElem_map, List.getElem_range]
    have hc : (i : ℚ) < (j : ℚ) := by exact_mod_cast hij
    push_cast
    linarith
  have hfinal := List.eq_of_perm_of_sorted (hsortperm.trans hRLperm)
    hsorted1_strict hsortedT
  rw [hfinal, List.map_map]
  have hsnd : (Prod.snd ∘ fun p : ℕ =>
      (((docsE.length : ℚ)) - ((p + 1 : ℕ) : ℚ), r.getD p 0))
      = fun p : ℕ => r.getD p 0 := rfl
  rw [hsnd, hlen, map_getD_self]
end Atri
namespace Atri
lemma pairwise_replicate_of_refl {α : Type} (rel : α → α → Prop) (n : ℕ) (c : α)
    (h : rel c c) : (List.replicate n c).Pairwise rel := by
  induction n with
  | zero => exact List.Pairwise.nil
  | succ m ih =>
    rw [List.replicate_succ]
    refine List.Pairwise.cons ?_ ih
    intro b hb
    rw [List.eq_of_mem_replicate hb]
    exact h

lemma aggFold_stall (c : ℚ) :
    ∀ (m : ℕ) (st : List (ℚ × ℕ) × ℕ), (st.1.lookup c).isSome →
      (List.replicate m c).foldl (fun (st : List (ℚ × ℕ) × ℕ) num =>
        if (st.1.lookup num).isSome then st else (st.1 ++ [(num, st.2)], st.2 + 1)) st
      = st := by
  intro m
  induction m with
  | zero => intro st _; rfl
  | succ k ih =>
    intro st hst
    rw [List.replicate_succ, List.foldl_cons, if_pos hst]
    exact ih st hst

lemma get_aggregated_ranks_replicate (m : ℕ) (c : ℚ) :
    get_aggregated_ranks (List.replicate (m + 1) c) = List.replicate (m + 1) 1 := by
  have hsort : List.insertionSort (fun a b => b ≤ a) (List.replicate (m + 1) c)
      = List.replicate (m + 1) c :=
    List.eq_of_perm_of_sorted (List.perm_insertionSort _ _)
      (List.sorted_insertionSort _ _)
      (pairwise_replicate_of_refl _ (m + 1) c le_rfl)
  simp only [get_aggregated_ranks]
  rw [hsort, List.replicate_succ, List.foldl_cons]
  have hempty : (([] : List (ℚ × ℕ)).lookup c).isSome = false := rfl
  rw [hempty]
  simp only [Bool.false_eq_true, if_false, List.nil_append]
  have hhit : (([(c, 1)] : List (ℚ × ℕ)).lookup c).isSome := by
    rw [List.lookup, beq_self_eq_true]
    rfl
  rw [aggFold_stall c m ([(c, 1)], 2) hhit]
  have hlook : (([(c, 1)] : List (ℚ × ℕ)).lookup c) = some 1 := by
    rw [List.lookup, beq_self_eq_true]
  dsimp only
  rw [← List.replicate_succ, List.map_replicate, hlook]
  rfl

lemma insertionSort_of_total_rel (rel : ℚ × ℕ → ℚ × ℕ → Prop) [DecidableRel rel]
    (l : List (ℚ × ℕ)) (h : ∀ a ∈ l, ∀ b ∈ l, rel a b) :
    List.insertionSort rel l = l := by
  induction l with
  | nil => rfl
  | cons x t ih =>
    rw [List.insertionSort]
    rw [ih (fun a ha b hb => h a (by simp [ha]) b (by simp [hb]))]
    cases t with
    | nil => rfl
    | cons y t2 =>
      rw [List.orderedInsert, if_pos (h x (by simp) y (by simp))]
end Atri
namespace Atri
lemma first_step_break (docsE r : List ℕ) (hnd : r.Nodup) (hperm : List.Perm docsE r)
    (hn0 : docsE.length ≠ 0)
    (hbig : 17 * ((docsE.length : ℚ) - 1) * 10000000 < 20 * (docsE.length : ℚ) ^ 2) :
    (List.range (matVecDot (List.replicate docsE.length (1 / (docsE.length : ℚ)))
        (singleETM docsE r)).length).all
      (fun k => |(matVecDot (List.replicate docsE.length (1 / (docsE.length : ℚ)))
            (singleETM docsE r)).getD k 0
          - (List.replicate docsE.length (1 / (docsE.length : ℚ))).getD k 0|
        < 1 / 10000000) = true := by
  have hnq : (0 : ℚ) < (docsE.length : ℚ) := by
    have : 0 < docsE.length := by omega
    exact_mod_cast this
  have hlen : (matVecDot (List.replicate docsE.length (1 / (docsE.length : ℚ)))
      (singleETM docsE r)).length = docsE.length := by
    rw [matVecDot_length, singleETM_row_length docsE r 0 (by omega)]
  rw [List.all_eq_true]
  intro k hk
  have hk' : k < docsE.length := by
    rw [hlen] at hk
    exact List.mem_range.mp hk
  simp only [decide_eq_true_eq]
  have hstep := single_step_getD docsE r hnd hperm (fun _ => 1 / (docsE.length : ℚ))
    (List.replicate docsE.length (1 / (docsE.length : ℚ)))
    (by simp)
    (fun d' hd' => getD_replicate_self docsE.length d' _ hd')
    k hk'
  have hq : qpos docsE r k < docsE.length := qpos_lt docsE r hnd hperm k hk'
  rw [hstep, stepFun_uniform docsE.length (qpos docsE r k) hq,
    getD_replicate_self docsE.length k _ hk']
  have heq : 1 / (docsE.length : ℚ)
      + 17 * ((docsE.length : ℚ) - 1 - 2 * (qpos docsE r k : ℚ))
        / (20 * (docsE.length : ℚ) ^ 2)
      - 1 / (docsE.length : ℚ)
      = 17 * ((docsE.length : ℚ) - 1 - 2 * (qpos docsE r k : ℚ))
        / (20 * (docsE.length : ℚ) ^ 2) := by ring
  rw [heq]
  have h20 : (0 : ℚ) < 20 * (docsE.length : ℚ) ^ 2 := by
    have := pow_pos hnq 2
    linarith
  rw [abs_div, abs_of_pos h20]
  rw [div_lt_div_iff₀ h20 (by norm_num : (0 : ℚ) < 10000000)]
  have hpc : (0 : ℚ) ≤ (qpos docsE r k : ℚ) := by positivity
  have hpub : (qpos docsE r k : ℚ) ≤ (docsE.length : ℚ) - 1 := by
    have : qpos docsE r k + 1 ≤ docsE.length := hq
    have hc : ((qpos docsE r k : ℕ) : ℚ) + 1 ≤ (docsE.length : ℚ) := by
      exact_mod_cast this
    linarith
  have habs : |17 * ((docsE.length : ℚ) - 1 - 2 * (qpos docsE r k : ℚ))|
      ≤ 17 * ((docsE.length : ℚ) - 1) := by
    rw [abs_le]
    constructor
    · linarith
    · linarith
  calc |17 * ((docsE.length : ℚ) - 1 - 2 * (qpos docsE r k : ℚ))| * 10000000
      ≤ 17 * ((docsE.length : ℚ) - 1) * 10000000 := by
        have h7 : (0 : ℚ) < 10000000 := by norm_num
        exact mul_le_mul_of_nonneg_right habs (le_of_lt h7)
    _ < 1 * (20 * (docsE.length : ℚ) ^ 2) := by
        rw [one_mul]
        exact hbig

lemma markov_single_break (docsE r : List ℕ) (hnd : r.Nodup)
    (hperm : List.Perm docsE r) (hn0 : docsE.length ≠ 0)
    (hbig : 17 * ((docsE.length : ℚ) - 1) * 10000000 < 20 * (docsE.length : ℚ) ^ 2) :
    (markov_rank_by_id docsE [r]).map (fun out => out.map Prod.snd)
      = Except.ok docsE := by
  rw [markov_single_run docsE r hnd hperm hn0]
  have hsfin : get_stationary_distribution_matrix
      (List.replicate docsE.length (1 / (docsE.length : ℚ)))
      (singleETM docsE r) (1 / 10000000) 200
      = List.replicate docsE.length (1 / (docsE.length : ℚ)) := by
    rw [get_stationary_distribution_matrix]
    have h200 : (200 : ℕ) = 199 + 1 := rfl
    rw [h200, stationary_loop]
    split
    · rfl
    · next hcond =>
        exact absurd (first_step_break docsE r hnd hperm hn0 hbig) hcond
  rw [hsfin]
  obtain ⟨m, hm⟩ : ∃ m, docsE.length = m + 1 := ⟨docsE.length - 1, by omega⟩
  rw [hm, get_aggregated_ranks_replicate m (1 / ((m + 1 : ℕ) : ℚ))]
  have hrep : (List.replicate (m + 1) 1 : List ℕ)
      = (List.range (m + 1)).map (fun _ => 1) := by
    rw [List.map_const']
    simp
  rw [hrep, zip_range_succ_map (m + 1) (fun _ => 1), List.map_map]
  have hall : ∀ a ∈ (List.range (m + 1)).map ((fun p : ℕ × ℕ =>
        ((((m + 1 : ℕ) : ℚ)) - (p.2 : ℚ), docsE.getD p.1 0))
          ∘ (fun d => (d, 1))),
      ∀ b ∈ (List.range (m + 1)).map ((fun p : ℕ × ℕ =>
        ((((m + 1 : ℕ) : ℚ)) - (p.2 : ℚ), docsE.getD p.1 0))
          ∘ (fun d => (d, 1))),
      b.1 ≤ a.1 := by
    intro a ha b hb
    obtain ⟨da, _, rfl⟩ := List.mem_map.mp ha
    obtain ⟨db, _, rfl⟩ := List.mem_map.mp hb
    simp only [Function.comp]
    exact le_rfl
  rw [insertionSort_of_total_rel _ _ hall]
  simp only [Except.map]
  refine congrArg Except.ok ?_
  rw [List.map_map]
  have hsnd : (Prod.snd ∘ ((fun p : ℕ × ℕ =>
      ((((m + 1 : ℕ) : ℚ)) - (p.2 : ℚ), docsE.getD p.1 0))
        ∘ (fun d => (d, 1))))
      = fun d : ℕ => docsE.getD d 0 := rfl
  rw [hsnd, ← hm, map_getD_self]
end Atri
namespace Atri
/-- C6 counterexample: for the single duplicate-free ranking
`r = range 10^7` with universe enumerated in reverse order, the Markov-chain
aggregator does NOT return `r`'s order: the convergence check
`(np.abs(error) < 1e-07).all()` already fires on the first iteration
(the largest first-step error is `17(n-1)/(20n^2) < 1e-07` at `n = 10^7`),
the loop returns the uniform initial distribution, every document ties, and
the stable sort leaves the set-enumeration order, which differs from `r`. -/
theorem aggregators_single_counterexample :
    (List.range 10000000).Nodup ∧
    List.Perm ((List.range 10000000).reverse) (List.range 10000000) ∧
    (markov_rank_by_id ((List.range 10000000).reverse) [List.range 10000000]).map
        (fun out => out.map Prod.snd)
      = Except.ok ((List.range 10000000).reverse) ∧
    (List.range 10000000).reverse ≠ List.range 10000000 := by
  have hlen : ((List.range 10000000).reverse).length = 10000000 := by simp
  refine ⟨List.nodup_range _, List.reverse_perm _, ?_, ?_⟩
  · refine markov_single_break ((List.range 10000000).reverse) (List.range 10000000)
      (List.nodup_range _) (List.reverse_perm _) (by rw [hlen]; norm_num) ?_
    rw [hlen]
    norm_num
  · intro h
    have h0 := congrArg (fun l : List ℕ => l.getD 0 0) h
    simp only at h0
    have hrev : ((List.range 10000000).reverse).getD 0 0 = 9999999 := by
      rw [List.getD_eq_getElem _ _ (by rw [hlen]; norm_num)]
      rw [List.getElem_reverse]
      simp
    have hr0 : (List.range 10000000).getD 0 0 = 0 := by
      rw [List.getD_eq_getElem _ _ (by simp)]
      simp
    rw [hrev, hr0] at h0
    exact absurd h0 (by norm_num)

/-- C6 (amended): aggregating the one-element batch `[r]` of a duplicate-free
ranking `r` over the set-enumerated universe `docsE` (a permutation of `r`)
returns, with Borda Count, a fused ranking whose document-id order is exactly
`r`'s order; the Markov-chain MC4 aggregator returns `r`'s order as well
whenever `r` is non-empty with at most 10^6 documents (for the empty ranking
it raises `ZeroDivisionError`, and at 10^7 documents the convergence check
fires on the first iteration and the set-enumeration order is returned
instead). -/
theorem aggregators_single (docsE r : List ℕ) (hnd : r.Nodup)
    (hperm : List.Perm docsE r) :
    (borda_rank_by_id docsE [r]).map (fun out => out.map Prod.snd)
        = Except.ok r ∧
    (r ≠ [] → r.length ≤ 1000000 →
      (markov_rank_by_id docsE [r]).map (fun out => out.map Prod.snd)
        = Except.ok r) :=
  ⟨borda_single docsE r hnd hperm,
   fun hr0 hb => markov_single docsE r hnd hperm hr0 hb⟩

/-- Witness for `aggregators_single` on a two-document ranking whose universe
enumeration order differs from the ranking order. -/
theorem aggregators_single_witness :
    ((borda_rank_by_id [3, 7] [[7, 3]]).map (fun out => out.map Prod.snd)
        = Except.ok [7, 3]) ∧
    (([7, 3] : List ℕ) ≠ [] → ([7, 3] : List ℕ).length ≤ 1000000 →
      (markov_rank_by_id [3, 7] [[7, 3]]).map (fun out => out.map Prod.snd)
        = Except.ok [7, 3]) :=
  aggregators_single [3, 7] [7, 3] (by decide) (by decide)
end Atri
